import Mathlib

/-!
Verification development for the cryptoai-bot repository: a shallow
embedding of the ingestion–dedup–quota–publish pipeline (config.py, db.py,
rss_fetcher.py, publisher.py, bot.py) together with theorems settling the
specification claims.  External effects (feed parsing, the HTTP image
lookup, the Telegram send call, the HuggingFace API, wall-clock time and
the random emoji choice) are passed in as explicit oracle parameters; the
SQLite tables of db.py are represented by association lists keyed exactly
as the tables are.
-/

namespace CryptoBot

/-! ## config.py -/

def CHANNEL_ID : String := "@aicriptoai"

def RSS_FEEDS : List String :=
  ["https://bits.media/rss/", "https://forklog.com/feed/", "https://cointelegraph.com/rss"]

def MAX_POSTS_PER_DAY : Nat := 10
def MAX_POSTS_PER_CHECK : Nat := 2
def CHECK_INTERVAL_SECONDS : Nat := 3600

def TELEGRAM_RETRY_ATTEMPTS : Nat := 3
def TELEGRAM_RETRY_DELAY : Nat := 30
def RSS_RETRY_ATTEMPTS : Nat := 2
def RSS_BACKOFF_TIME : Nat := 300

def DEFAULT_IMAGE_PATH : String := "media/default.jpg"
def CAPTION_LIMIT : Nat := 1000
def MIN_TITLE_LENGTH : Nat := 10
def MIN_SUMMARY_LENGTH : Nat := 20

def HF_TOKEN : String := ""
def HF_REWRITE_MODEL : String := "google/flan-t5-large"
def REWRITE_MAX_CHARS : Nat := 750

/-! ## Python string primitives used by the sources

The helpers below model the fragments of the Python standard library that
rss_fetcher.py and publisher.py lean on: whitespace classification as in
str.split, case folding over ASCII and the Cyrillic block (the only
alphabets occurring in the sources' patterns and keyword lists), substring
search as in the `in` operator, and slicing.
-/

/-- Whitespace as recognised by Python's str.split and the regex class \s:
ASCII whitespace, the C0 separators, NEL, NBSP and the common Unicode
space code points. -/
def pyIsSpace (c : Char) : Bool :=
  let n := c.toNat
  (9 ≤ n ∧ n ≤ 13) || n == 32 || (28 ≤ n ∧ n ≤ 31) || n == 0x85 || n == 0xA0 ||
  n == 0x1680 || (0x2000 ≤ n ∧ n ≤ 0x200A) || n == 0x2028 || n == 0x2029 ||
  n == 0x202F || n == 0x205F || n == 0x3000

/-- Case folding for one character covering ASCII A–Z and the Cyrillic
letters А–Я and Ё, matching what str.lower and re.IGNORECASE do on the
alphabets that appear in the sources. -/
def pyLowerChar (c : Char) : Char :=
  let n := c.toNat
  if 65 ≤ n ∧ n ≤ 90 then Char.ofNat (n + 32)
  else if 0x410 ≤ n ∧ n ≤ 0x42F then Char.ofNat (n + 0x20)
  else if n = 0x401 then Char.ofNat 0x451
  else c

def pyLower (s : String) : String := String.mk (s.data.map pyLowerChar)

/-- List-level word split: maximal runs of non-whitespace characters, as
Python's str.split() with no argument. -/
def pyWordsAux : List Char → List Char → List (List Char)
  | [], acc => if acc.isEmpty then [] else [acc.reverse]
  | c :: cs, acc =>
    if pyIsSpace c then
      if acc.isEmpty then pyWordsAux cs [] else acc.reverse :: pyWordsAux cs []
    else pyWordsAux cs (c :: acc)

def pyWords (s : String) : List String := (pyWordsAux s.data []).map String.mk

/-- The idiom " ".join(text.split()).strip() that ends strip_html,
remove_urls and remove_source_refs. -/
def normalizeWs (s : String) : String := String.intercalate " " (pyWords s)

/-- Substring containment, Python's `needle in haystack`. -/
def listContainsSub (needle hay : List Char) : Bool :=
  match hay with
  | [] => needle.isEmpty
  | _ :: t => needle.isPrefixOf hay || listContainsSub needle t

def containsSub (hay needle : String) : Bool := listContainsSub needle.data hay.data

/-- Python slice s[:n]. -/
def pyTake (s : String) (n : Nat) : String := String.mk (s.data.take n)

def isAsciiLetter (c : Char) : Bool :=
  (65 ≤ c.toNat ∧ c.toNat ≤ 90) || (97 ≤ c.toNat ∧ c.toNat ≤ 122)

def isAsciiDigit (c : Char) : Bool := 48 ≤ c.toNat ∧ c.toNat ≤ 57

def asciiLowerChar (c : Char) : Char :=
  if 65 ≤ c.toNat ∧ c.toNat ≤ 90 then Char.ofNat (c.toNat + 32) else c

def asciiLower (s : String) : String := String.mk (s.data.map asciiLowerChar)

/-- str.startswith. -/
def strStarts (s pre : String) : Bool := pre.data.isPrefixOf s.data

/-- str.endswith. -/
def strEnds (s suf : String) : Bool := suf.data.reverse.isPrefixOf s.data.reverse

/-- str.split(sep) over one separator character, as used on query
strings: splitting the empty text yields one empty field. -/
def splitChar (sep : Char) : List Char → List (List Char)
  | [] => [[]]
  | c :: rest =>
    match splitChar sep rest with
    | g :: gs => if c == sep then [] :: g :: gs else (c :: g) :: gs
    | [] => [[c]]

/-! ## re.sub scanners

Each re.sub call of the sources scans left to right and replaces
non-overlapping matches.  scanSub is that scan: step inspects the text at
the current position and, on a match, yields the replacement plus the rest
of the text after the match (every pattern of the sources consumes at
least one character, so fuel equal to the text length always suffices). -/

def scanSub (step : List Char → Option (List Char × List Char)) :
    Nat → List Char → List Char
  | 0, _ => []
  | _, [] => []
  | fuel + 1, c :: cs =>
    match step (c :: cs) with
    | some (rep, rest) => rep ++ scanSub step fuel rest
    | none => c :: scanSub step fuel cs

/-- Case-insensitive literal match of a pattern at the head of the text,
returning the rest of the text. -/
def dropCi : List Char → List Char → Option (List Char)
  | [], l => some l
  | _ :: _, [] => none
  | p :: ps, c :: cs => if pyLowerChar c == pyLowerChar p then dropCi ps cs else none

/-- One match of the pattern <br\s*/?> (re.I), as in strip_html. -/
def brStep : List Char → Option (List Char × List Char)
  | '<' :: b :: r :: rest =>
    if (b == 'b' || b == 'B') && (r == 'r' || r == 'R') then
      match rest.dropWhile pyIsSpace with
      | '/' :: '>' :: t => some (['\n'], t)
      | '>' :: t => some (['\n'], t)
      | _ => none
    else none
  | _ => none

/-- Scan for the closing angle bracket of one <.*?> match; the dot of the
pattern does not cross a newline. -/
def findGt : List Char → Option (List Char)
  | [] => none
  | '>' :: t => some t
  | '\n' :: _ => none
  | _ :: t => findGt t

/-- One match of the pattern <.*?> as in strip_html. -/
def tagStep : List Char → Option (List Char × List Char)
  | '<' :: cs => (findGt cs).map (fun rest => ([], rest))
  | _ => none

/-- One match of https?://\S+ or www\.\S+ given the literal prefixes to
try, as in remove_urls (case-sensitive, no flags there). -/
def urlStep (prefixes : List (List Char)) (l : List Char) :
    Option (List Char × List Char) :=
  match prefixes.findSome? (fun p => if p.isPrefixOf l then some (l.drop p.length) else none) with
  | none => none
  | some r0 =>
    let tok := r0.takeWhile (fun c => !pyIsSpace c)
    if tok.isEmpty then none else some ([], r0.dropWhile (fun c => !pyIsSpace c))

/-- One match of phrase\s+\S+ (re.I), the shape of most patterns of
remove_source_refs. -/
def phraseStep (phrase : List Char) (l : List Char) : Option (List Char × List Char) :=
  match dropCi phrase l with
  | none => none
  | some r1 =>
    let r2 := r1.dropWhile pyIsSpace
    if r1.length == r2.length then none
    else
      let tok := r2.takeWhile (fun c => !pyIsSpace c)
      if tok.isEmpty then none
      else some ([], r2.dropWhile (fun c => !pyIsSpace c))

/-- Index of the last colon of a list, if any. -/
def lastIdxColon (l : List Char) : Option Nat :=
  match l.reverse.findIdx? (· == ':') with
  | none => none
  | some k => some (l.length - 1 - k)

/-- One match of word[:\s]+\S+ (re.I), the shape of the two
source/источник patterns of remove_source_refs, with the regex
backtracking at end of text resolved as the engine does. -/
def colonStep (word : List Char) (l : List Char) : Option (List Char × List Char) :=
  match dropCi word l with
  | none => none
  | some r1 =>
    let run := r1.takeWhile (fun c => c == ':' || pyIsSpace c)
    let r2 := r1.dropWhile (fun c => c == ':' || pyIsSpace c)
    if run.isEmpty then none
    else
      match r2 with
      | _ :: _ => some ([], r2.dropWhile (fun c => !pyIsSpace c))
      | [] =>
        match lastIdxColon run with
        | some j => if 1 ≤ j then some ([], run.drop (j + 1)) else none
        | none => none

/-- strip_html of publisher.py:19-24 and rss_fetcher.py:26-31. -/
def strip_html (s : String) : String :=
  if s = "" then ""
  else
    let a := scanSub brStep s.data.length s.data
    let b := scanSub tagStep a.length a
    normalizeWs (String.mk b)

/-- remove_urls of publisher.py:26-31. -/
def remove_urls (s : String) : String :=
  if s = "" then ""
  else
    let a := scanSub (urlStep ["https://".data, "http://".data]) s.data.length s.data
    let b := scanSub (urlStep ["www.".data]) a.length a
    normalizeWs (String.mk b)

/-- The nine substitution passes of remove_source_refs, in source order. -/
def srSteps : List (List Char → Option (List Char × List Char)) :=
  [phraseStep "по данным".data, colonStep "источник".data,
   phraseStep "сообщает".data, phraseStep "пишет".data,
   phraseStep "согласно".data, phraseStep "как сообщает".data,
   phraseStep "reported by".data, phraseStep "according to".data,
   colonStep "source".data]

/-- remove_source_refs of publisher.py:33-43. -/
def remove_source_refs (s : String) : String :=
  if s = "" then ""
  else normalizeWs (String.mk (srSteps.foldl (fun l st => scanSub st l.length l) s.data))

/-- looks_ru of publisher.py:45-46: a search for [А-Яа-яЁё]. -/
def looks_ru (s : String) : Bool :=
  s.data.any fun c =>
    (0x410 ≤ c.toNat ∧ c.toNat ≤ 0x44F) || c.toNat == 0x401 || c.toNat == 0x451

/-- One pass of re.sub(r"[a-zA-Z]{3,}", "", ...): drop maximal ASCII
letter runs of length at least three. -/
def stripLatinAux : Nat → List Char → List Char
  | 0, _ => []
  | _, [] => []
  | fuel + 1, c :: cs =>
    if isAsciiLetter c then
      let run := cs.takeWhile isAsciiLetter
      let rest := cs.dropWhile isAsciiLetter
      (if 3 ≤ run.length + 1 then [] else c :: run) ++ stripLatinAux fuel rest
    else c :: stripLatinAux fuel cs

def stripLatin (s : String) : String := String.mk (stripLatinAux s.data.length s.data)

/-- truncate of publisher.py:48-51. -/
def truncate (text : String) (limit : Nat) : String :=
  if text.length ≤ limit then text else pyTake text (limit - 1) ++ "…"

/-- Python str.strip() with no argument. -/
def pyStrip (s : String) : String :=
  String.mk (((s.data.dropWhile pyIsSpace).reverse.dropWhile pyIsSpace).reverse)

/-! ## urllib.parse, as consumed by clean_url (rss_fetcher.py:15-24)

clean_url is urlparse / parse_qsl / filter / urlencode / urlunparse.  The
parsing and percent-coding layers of urllib are embedded below; the query
string itself is carried both as raw text (UrlParts, what urlparse
yields) and as the decoded key-value list (UrlQ, what parse_qsl yields
and urlencode serialises). -/

def utf8EncodeChar (c : Char) : List Nat :=
  let n := c.toNat
  if n < 0x80 then [n]
  else if n < 0x800 then [0xC0 + n / 64, 0x80 + n % 64]
  else if n < 0x10000 then [0xE0 + n / 4096, 0x80 + n / 64 % 64, 0x80 + n % 64]
  else [0xF0 + n / 262144, 0x80 + n / 4096 % 64, 0x80 + n / 64 % 64, 0x80 + n % 64]

/-- UTF-8 decoding of a byte list; malformed sequences yield U+FFFD as
with errors="replace". -/
def utf8DecodeAux : Nat → List Nat → List Char
  | 0, _ => []
  | _, [] => []
  | fuel + 1, b :: bs =>
    let bad := Char.ofNat 0xFFFD :: utf8DecodeAux fuel bs
    if b < 0x80 then Char.ofNat b :: utf8DecodeAux fuel bs
    else if 0xC2 ≤ b ∧ b ≤ 0xDF then
      match bs with
      | b1 :: rest =>
        if 0x80 ≤ b1 ∧ b1 ≤ 0xBF then
          Char.ofNat ((b - 0xC0) * 64 + (b1 - 0x80)) :: utf8DecodeAux fuel rest
        else bad
      | [] => bad
    else if 0xE0 ≤ b ∧ b ≤ 0xEF then
      match bs with
      | b1 :: b2 :: rest =>
        if (0x80 ≤ b1 ∧ b1 ≤ 0xBF) ∧ (0x80 ≤ b2 ∧ b2 ≤ 0xBF) ∧
           (b = 0xE0 → 0xA0 ≤ b1) ∧ (b = 0xED → b1 ≤ 0x9F) then
          Char.ofNat ((b - 0xE0) * 4096 + (b1 - 0x80) * 64 + (b2 - 0x80)) ::
            utf8DecodeAux fuel rest
        else bad
      | _ => bad
    else if 0xF0 ≤ b ∧ b ≤ 0xF4 then
      match bs with
      | b1 :: b2 :: b3 :: rest =>
        if (0x80 ≤ b1 ∧ b1 ≤ 0xBF) ∧ (0x80 ≤ b2 ∧ b2 ≤ 0xBF) ∧ (0x80 ≤ b3 ∧ b3 ≤ 0xBF) ∧
           (b = 0xF0 → 0x90 ≤ b1) ∧ (b = 0xF4 → b1 ≤ 0x8F) then
          Char.ofNat ((b - 0xF0) * 262144 + (b1 - 0x80) * 4096 + (b2 - 0x80) * 64 + (b3 - 0x80)) ::
            utf8DecodeAux fuel rest
        else bad
      | _ => bad
    else bad

def utf8Decode (bs : List Nat) : List Char := utf8DecodeAux bs.length bs

/-- The characters quote_plus never escapes. -/
def quoteSafeChar (c : Char) : Bool :=
  isAsciiLetter c || isAsciiDigit c || c == '_' || c == '.' || c == '-' || c == '~'

def hexDigitUpper (n : Nat) : Char :=
  if n < 10 then Char.ofNat (48 + n) else Char.ofNat (55 + n)

/-- The per-character action of quote_plus with safe="": safe characters
pass, the space becomes a plus, everything else is percent-escaped
byte by byte. -/
def quoteChar (c : Char) : List Char :=
  if quoteSafeChar c then [c]
  else if c == ' ' then ['+']
  else (utf8EncodeChar c).foldr
    (fun b acc => '%' :: hexDigitUpper (b / 16) :: hexDigitUpper (b % 16) :: acc) []

/-- quote_plus with safe="", what urlencode applies to keys and values. -/
def quotePlus (s : String) : String := String.mk ((s.data.map quoteChar).flatten)

def hexVal (c : Char) : Option Nat :=
  if 48 ≤ c.toNat ∧ c.toNat ≤ 57 then some (c.toNat - 48)
  else if 97 ≤ c.toNat ∧ c.toNat ≤ 102 then some (c.toNat - 87)
  else if 65 ≤ c.toNat ∧ c.toNat ≤ 70 then some (c.toNat - 55)
  else none

/-- unquote_plus: plus becomes space, percent escapes become bytes and
maximal byte runs are UTF-8 decoded. -/
def unquotePlusAux : Nat → List Char → List Nat → List Char
  | 0, _, pending => utf8Decode pending.reverse
  | _, [], pending => utf8Decode pending.reverse
  | fuel + 1, c :: rest, pending =>
    if c == '%' then
      match rest with
      | h1 :: h2 :: rest2 =>
        match hexVal h1, hexVal h2 with
        | some a, some b => unquotePlusAux fuel rest2 ((a * 16 + b) :: pending)
        | _, _ => utf8Decode pending.reverse ++ '%' :: unquotePlusAux fuel rest []
      | _ => utf8Decode pending.reverse ++ '%' :: unquotePlusAux fuel rest []
    else if c == '+' then utf8Decode pending.reverse ++ ' ' :: unquotePlusAux fuel rest []
    else utf8Decode pending.reverse ++ c :: unquotePlusAux fuel rest []

def unquotePlus (s : String) : String := String.mk (unquotePlusAux s.data.length s.data [])

/-- Split at the first occurrence of a character. -/
def splitFirst (ch : Char) (l : List Char) : Option (List Char × List Char) :=
  match l.findIdx? (· == ch) with
  | none => none
  | some i => some (l.take i, l.drop (i + 1))

/-- parse_qsl with keep_blank_values=True: split the query on ampersands,
skip empty fields, split each field at its first equals sign (a field
without one keeps a blank value) and unquote both halves. -/
def pyParseQsl (qs : String) : List (String × String) :=
  (splitChar '&' qs.data).filterMap fun field =>
    if field.isEmpty then none
    else match splitFirst '=' field with
      | none => some (unquotePlus (String.mk field), "")
      | some (k, v) => some (unquotePlus (String.mk k), unquotePlus (String.mk v))

/-- urlencode over a key-value list with the default quote_via. -/
def pyUrlencode (l : List (String × String)) : String :=
  String.intercalate "&" (l.map fun kv => quotePlus kv.1 ++ "=" ++ quotePlus kv.2)

/-- The six components of urlparse. -/
structure UrlParts where
  scheme : String
  netloc : String
  path : String
  params : String
  query : String
  fragment : String
deriving DecidableEq, Repr

/-- A URL with its query resolved to the key-value list parse_qsl
yields; this is the representation clean_url transforms. -/
structure UrlQ where
  scheme : String
  netloc : String
  path : String
  params : String
  query : List (String × String)
  fragment : String
deriving DecidableEq, Repr

def isSchemeChar (c : Char) : Bool :=
  isAsciiLetter c || isAsciiDigit c || c == '+' || c == '-' || c == '.'

/-- The WHATWG sanitisation urlsplit applies first: lstrip C0 controls
and spaces from the left only (CPython keeps trailing space on purpose),
then drop tabs and line breaks everywhere. -/
def sanitizeUrl (s : String) : String :=
  String.mk ((s.data.dropWhile fun c => c.toNat ≤ 0x20).filter
    fun c => !(c == '\t' || c == '\r' || c == '\n'))

/-- The scheme split of urlsplit: the text before the first colon is the
scheme, lower-cased, when it is nonempty, starts with an ASCII letter and
consists of scheme characters only. -/
def schemeOf (l : List Char) : String × List Char :=
  match l.findIdx? (· == ':') with
  | some i =>
    if decide (0 < i) && (match l.head? with | some c => isAsciiLetter c | none => false)
        && (l.take i).all isSchemeChar
    then (asciiLower (String.mk (l.take i)), l.drop (i + 1))
    else ("", l)
  | none => ("", l)

/-- _splitnetloc: after a double slash, the netloc runs to the next
slash, question mark or hash. -/
def netlocOf (l1 : List Char) : String × List Char :=
  if l1.take 2 = ['/', '/'] then
    let rest := l1.drop 2
    let n := rest.takeWhile fun c => !(c == '/' || c == '?' || c == '#')
    (String.mk n, rest.drop n.length)
  else ("", l1)

/-- urlsplit: scheme (lower-cased, first character ASCII alphabetic),
netloc after a double slash with the unbalanced-bracket check (none
models the ValueError), fragment at the first hash, query at the first
question mark.  The further host validations of newer CPython
(_check_bracketed_host, _checknetloc) only widen the exception path,
where clean_url returns its input unchanged; they are not modelled. -/
def pyUrlsplit (url0 : String) : Option (String × String × String × String × String) :=
  let l := (sanitizeUrl url0).data
  let schemeSplit := schemeOf l
  let scheme := schemeSplit.1
  let netlocSplit := netlocOf schemeSplit.2
  let netloc := netlocSplit.1
  let l2 := netlocSplit.2
  if (netloc.data.contains '[' && !netloc.data.contains ']') ||
     (netloc.data.contains ']' && !netloc.data.contains '[') then none
  else
    let fragSplit := match splitFirst '#' l2 with
      | some ab => (ab.1, String.mk ab.2)
      | none => (l2, "")
    let fragment := fragSplit.2
    match splitFirst '?' fragSplit.1 with
    | some ab => some (scheme, netloc, String.mk ab.1, String.mk ab.2, fragment)
    | none => some (scheme, netloc, String.mk fragSplit.1, "", fragment)

/-- _splitparams: parameters after the first semicolon of the last path
segment. -/
def pySplitParams (path : List Char) : String × String :=
  if path.contains ';' then
    if path.contains '/' then
      let lastSlash := path.length - 1 - ((path.reverse.findIdx? (· == '/')).getD 0)
      match (path.drop lastSlash).findIdx? (· == ';') with
      | none => (String.mk path, "")
      | some j => (String.mk (path.take (lastSlash + j)), String.mk (path.drop (lastSlash + j + 1)))
    else
      match splitFirst ';' path with
      | some (a, b) => (String.mk a, String.mk b)
      | none => (String.mk path, "")
  else (String.mk path, "")

/-- The schemes urlparse splits ;params for (urllib's uses_params); the
empty entry admits scheme-less URLs. -/
def uses_params : List String :=
  ["", "ftp", "hdl", "prospero", "http", "imap", "https", "shttp", "rtsp",
   "rtsps", "rtspu", "sip", "sips", "mms", "sftp", "tel"]

/-- urlparse: urlsplit plus the params split for the schemes that use
params. -/
def pyUrlparse (url : String) : Option UrlParts :=
  match pyUrlsplit url with
  | none => none
  | some (scheme, netloc, path, query, fragment) =>
    if uses_params.contains scheme && path.data.contains ';' then
      let pp := pySplitParams path.data
      some ⟨scheme, netloc, pp.1, pp.2, query, fragment⟩
    else some ⟨scheme, netloc, path, "", query, fragment⟩

/-- The schemes urlunsplit re-attaches a double slash for (urllib's
uses_netloc, the empty entry being unreachable behind the nonempty-scheme
test). -/
def uses_netloc : List String :=
  ["", "ftp", "http", "gopher", "nntp", "telnet", "imap", "wais", "file",
   "mms", "https", "shttp", "snews", "prospero", "rtsp", "rtsps", "rtspu",
   "rsync", "svn", "svn+ssh", "sftp", "nfs", "git", "git+ssh", "ws", "wss"]

/-- urlunsplit: the double slash returns when there is a netloc, or when
the scheme is a known netloc scheme and the path does not already start
with one. -/
def pyUrlunsplit (scheme netloc url query fragment : String) : String :=
  let url :=
    if netloc ≠ "" ∨ (scheme ≠ "" ∧ uses_netloc.contains scheme ∧ ¬ strStarts url "//") then
      (if url ≠ "" ∧ ¬ strStarts url "/" then "//" ++ netloc ++ "/" ++ url
       else "//" ++ netloc ++ url)
    else url
  let url := if scheme ≠ "" then scheme ++ ":" ++ url else url
  let url := if query ≠ "" then url ++ "?" ++ query else url
  if fragment ≠ "" then url ++ "#" ++ fragment else url

/-- urlunparse. -/
def pyUrlunparse (p : UrlParts) : String :=
  pyUrlunsplit p.scheme p.netloc
    (if p.params ≠ "" then p.path ++ ";" ++ p.params else p.path) p.query p.fragment

/-- The tracking-key test of rss_fetcher.py:20: k.lower().startswith("utm_"). -/
def isUtmKey (k : String) : Bool := strStarts (pyLower k) "utm_"

/-- clean_url of rss_fetcher.py:15-24 as the transformation it performs on
the parsed URL: keep every query parameter whose key does not start
case-insensitively with utm_, all other components unchanged. -/
def clean_url (u : UrlQ) : UrlQ :=
  { u with query := u.query.filter fun kv => !(isUtmKey kv.1) }

def toUrlQ (p : UrlParts) : UrlQ :=
  ⟨p.scheme, p.netloc, p.path, p.params, pyParseQsl p.query, p.fragment⟩

def ofUrlQ (u : UrlQ) : UrlParts :=
  ⟨u.scheme, u.netloc, u.path, u.params, pyUrlencode u.query, u.fragment⟩

/-- clean_url of rss_fetcher.py:15-24 at the string level: empty input
maps to the empty string, a parse error returns the input unchanged (the
except branch), otherwise parse, filter, re-encode, unparse. -/
def clean_url_str (url : String) : String :=
  if url = "" then ""
  else match pyUrlparse url with
    | none => url
    | some p => pyUrlunparse (ofUrlQ (clean_url (toUrlQ p)))

/-! ## db.py

The three SQLite tables are association lists keyed as the tables are
(posted by uid, daily_stats by date, failed_sources by source_url); all
db.py operations are single atomic statements under one lock, so each is
a pure state transformer.  Wall-clock reads (int(time.time()) and
datetime.now().strftime("%Y-%m-%d")) are the explicit now / today
arguments. -/

structure PostedRow where
  uid : String
  created_at : Nat
  title : String
  link : String
deriving DecidableEq, Repr

structure SuspRow where
  failed_at : Nat
  retry_after : Nat
deriving DecidableEq, Repr

structure DB where
  posted : List PostedRow
  daily_stats : List (String × Nat)
  failed_sources : List (String × SuspRow)
deriving DecidableEq, Repr

/-- init_db / reset_db leave empty tables. -/
def initDB : DB := ⟨[], [], []⟩

/-- is_posted of db.py:47-51. -/
def is_posted (db : DB) (uid : String) : Bool :=
  db.posted.any fun r => r.uid == uid

/-- mark_posted of db.py:53-60: INSERT OR IGNORE with title[:300] and
link[:500]. -/
def mark_posted (db : DB) (uid : String) (now : Nat) (title link : String) : DB :=
  if is_posted db uid then db
  else { db with posted := db.posted ++ [⟨uid, now, pyTake title 300, pyTake link 500⟩] }

/-- Lookup in the daily_stats table: the date column is the primary key,
so a SELECT by date reads the single matching row or yields zero. -/
def statLookup : List (String × Nat) → String → Nat
  | [], _ => 0
  | p :: l, d => if p.1 == d then p.2 else statLookup l d

/-- Upsert into the daily_stats table: increment the single row of the
date, or insert a fresh row with count one. -/
def statIncr : List (String × Nat) → String → List (String × Nat)
  | [], d => [(d, 1)]
  | p :: l, d => if p.1 == d then (p.1, p.2 + 1) :: l else p :: statIncr l d

/-- get_today_posts_count of db.py:62-68. -/
def get_today_posts_count (db : DB) (today : String) : Nat :=
  statLookup db.daily_stats today

/-- increment_today_posts of db.py:70-78: upsert with increment or
initialise to one. -/
def increment_today_posts (db : DB) (today : String) : DB :=
  { db with daily_stats := statIncr db.daily_stats today }

/-- Lookup in the failed_sources table, keyed by source_url. -/
def suspLookup : List (String × SuspRow) → String → Option SuspRow
  | [], _ => none
  | p :: l, u => if p.1 == u then some p.2 else suspLookup l u

/-- INSERT OR REPLACE into the failed_sources table. -/
def suspReplace : List (String × SuspRow) → String → SuspRow → List (String × SuspRow)
  | [], u, r => [(u, r)]
  | p :: l, u, r => if p.1 == u then (u, r) :: l else p :: suspReplace l u r

/-- mark_source_failed of db.py:80-90: INSERT OR REPLACE with
retry_after = now + backoff_seconds. -/
def mark_source_failed (db : DB) (source_url : String) (backoff_seconds now : Nat) : DB :=
  { db with failed_sources :=
      suspReplace db.failed_sources source_url ⟨now, now + backoff_seconds⟩ }

/-- is_source_available of db.py:92-102: no row, or now at or past
retry_after. -/
def is_source_available (db : DB) (source_url : String) (now : Nat) : Bool :=
  match suspLookup db.failed_sources source_url with
  | none => true
  | some r => decide (r.retry_after ≤ now)

/-- clear_available_sources of db.py:104-110: delete rows whose
retry_after has passed. -/
def clear_available_sources (db : DB) (now : Nat) : DB :=
  { db with failed_sources := db.failed_sources.filter fun p => !(p.2.retry_after ≤ now) }

/-- cleanup_old_stats of db.py:112-117: delete daily rows with a date key
below the cutoff (string comparison, as SQLite compares TEXT). -/
def cleanup_old_stats (db : DB) (cutoff : String) : DB :=
  { db with daily_stats := db.daily_stats.filter fun p => !(p.1 < cutoff) }

/-! ## rss_fetcher.py -/

/-- A fetched candidate item, the dict built at rss_fetcher.py:114-121. -/
structure Item where
  uid : String
  title : String
  summary : String
  link : String
  source : String
  image_url : String
deriving DecidableEq, Repr

/-- A feedparser entry, restricted to the fields the source reads: the
title/summary/description texts, the link, and the url/href lists of the
media_content, media_thumbnail and enclosures fields. -/
structure RawEntry where
  title : String
  summary : String
  description : String
  link : String
  media_content : List String
  media_thumbnail : List String
  enclosures : List String
deriving DecidableEq, Repr

/-- One feedparser.parse outcome: the bozo flag (any other fetch
exception is folded into it, both raise at rss_fetcher.py:94-95), the
feed title and the entry list. -/
structure ParsedFeed where
  bozo : Bool
  feedTitle : String
  entries : List RawEntry
deriving Repr

/-- make_uid of rss_fetcher.py:33-35.  The SHA-256 hex fingerprint is
represented by its preimage source|cleaned-link|title: two uids are equal
exactly when their preimages are, which is the hash up to collisions. -/
def make_uid (source link title : String) : String :=
  pyStrip (source ++ "|" ++ clean_url_str link ++ "|" ++ title)

/-- is_valid_item of rss_fetcher.py:37-43. -/
def is_valid_item (title summary : String) : Bool :=
  if title = "" ∨ title.length < MIN_TITLE_LENGTH then false
  else if summary = "" ∨ summary.length < MIN_SUMMARY_LENGTH then false
  else true

/-- First element of a media url list when present and non-empty, the
per-key step of try_get_image_from_entry. -/
def firstMediaUrl (l : List String) : Option String :=
  match l.head? with
  | some u => if u = "" then none else some u
  | none => none

/-- try_get_image_from_entry of rss_fetcher.py:45-59. -/
def try_get_image_from_entry (e : RawEntry) : String :=
  match firstMediaUrl e.media_content with
  | some u => u
  | none =>
    match firstMediaUrl e.media_thumbnail with
    | some u => u
    | none =>
      match e.enclosures.find? (fun href =>
        href ≠ "" ∧ [".jpg", ".jpeg", ".png", ".webp"].any fun ext =>
          strEnds (asciiLower href) ext) with
      | some href => href
      | none => ""

/-- The per-entry body of the fetch loop, rss_fetcher.py:99-121: strip
markup, validity-gate, clean the link, resolve an image (og is the
best-effort Open-Graph page lookup, an external call), build the item.
None is the `continue` on an invalid entry. -/
def processEntry (source : String) (og : String → String) (e : RawEntry) : Option Item :=
  let title := pyStrip (strip_html e.title)
  let summary := pyStrip (strip_html (if e.summary = "" then e.description else e.summary))
  let link := pyStrip (clean_url_str e.link)
  if ¬ is_valid_item title summary then none
  else
    let img0 := try_get_image_from_entry e
    let image_url := if img0 = "" then og link else img0
    some ⟨make_uid source link title, title, summary, link, source, image_url⟩

/-- The retry loop of fetch_single_feed (rss_fetcher.py:89-133): the
first argument is the number of loop iterations left (the for loop over
range(RSS_RETRY_ATTEMPTS) starts with all of them), the second the
current attempt index.  A bozo parse is the raised exception; the final
failed attempt (index RSS_RETRY_ATTEMPTS - 1) marks the source; a
successful parse processes the first limit_total entries.  The third
result component counts parse attempts made. -/
def fetchGo (db : DB) (now : Nat) (feed_url : String) (limit_total : Nat)
    (parse : Nat → ParsedFeed) (og : String → String) : Nat → Nat → DB × List Item × Nat
  | 0, _ => (db, [], 0)
  | fuel + 1, i =>
    let d := parse i
    if d.bozo then
      if i = RSS_RETRY_ATTEMPTS - 1 then
        (mark_source_failed db feed_url RSS_BACKOFF_TIME now, [], 1)
      else
        let r := fetchGo db now feed_url limit_total parse og fuel (i + 1)
        (r.1, r.2.1, r.2.2 + 1)
    else
      let source := pyStrip (if d.feedTitle = "" then feed_url else d.feedTitle)
      (db, (d.entries.take limit_total).filterMap (processEntry source og), 1)

/-- fetch_single_feed of rss_fetcher.py:80-133: skip a suspended source
outright, else run the attempt loop. -/
def fetch_single_feed (db : DB) (now : Nat) (feed_url : String) (limit_total : Nat)
    (parse : Nat → ParsedFeed) (og : String → String) : DB × List Item × Nat :=
  if ¬ is_source_available db feed_url now then (db, [], 0)
  else fetchGo db now feed_url limit_total parse og RSS_RETRY_ATTEMPTS 0

/-- The accumulation loop of fetch_items (rss_fetcher.py:139-142),
threading the store through the per-feed fetches in order. -/
def fetchAll (db : DB) (now : Nat) (feed_urls : List String) (limit_total : Nat)
    (parse : String → Nat → ParsedFeed) (og : String → String) : DB × List Item :=
  match feed_urls with
  | [] => (db, [])
  | url :: rest =>
    let r := fetch_single_feed db now url limit_total (parse url) og
    let rr := fetchAll r.1 now rest limit_total parse og
    (rr.1, r.2.1 ++ rr.2)

/-- One step of the uniq dict of rss_fetcher.py:145-147: a dict
assignment keeps the first-insertion position of the key but overwrites
the stored item. -/
def upsertUid (acc : List Item) (it : Item) : List Item :=
  if acc.any (fun j => j.uid == it.uid) then
    acc.map fun j => if j.uid == it.uid then it else j
  else acc ++ [it]

/-- The uniq dict built over the whole fetched list, read back in
insertion order (list(uniq.values())). -/
def dedupByUid (items : List Item) : List Item := items.foldl upsertUid []

/-- fetch_items of rss_fetcher.py:135-150. -/
def fetch_items (db : DB) (now : Nat) (feed_urls : List String) (limit_total : Nat)
    (parse : String → Nat → ParsedFeed) (og : String → String) : DB × List Item :=
  let db1 := clear_available_sources db now
  let r := fetchAll db1 now feed_urls limit_total parse og
  (r.1, dedupByUid r.2)

/-! ## publisher.py -/

/-- The emoji list of publisher.py:68. -/
def emojis : List String := ["🔥", "💎", "⚡", "🚀", "📊", "💰", "🎯", "⭐"]

/-- generate_market_impact of publisher.py:80-92. -/
def generate_market_impact (title summary : String) : String :=
  let text := pyLower (title ++ " " ++ summary)
  if ["рост", "повышение", "подъем", "rally", "bullish", "прибыль"].any (containsSub text) then
    "Позитивный сигнал для рынка — возможен рост котировок."
  else if ["падение", "снижение", "обвал", "crash", "bearish", "убыток"].any (containsSub text) then
    "Негативный фактор — возможна коррекция цен."
  else if ["регулир", "запрет", "ограничение", "санкции", "закон"].any (containsSub text) then
    "Регуляторные изменения могут повлиять на волатильность."
  else if ["обновление", "запуск", "интеграция", "технология", "upgrade"].any (containsSub text) then
    "Технологическое развитие — укрепление позиций в долгосрочной перспективе."
  else if ["инвестиции", "фонд", "институц", "биржа", "listing"].any (containsSub text) then
    "Институциональный интерес — сигнал роста доверия к активу."
  else "Рынок наблюдает за развитием событий — возможна повышенная волатильность."

/-- summary[:400].rsplit(".", 1)[0]: the first 400 characters up to the
last full stop among them. -/
def rsplitDotHead (s : String) : String :=
  match s.data.reverse.findIdx? (· == '.') with
  | none => s
  | some k => String.mk (s.data.take (s.data.length - 1 - k))

/-- simple_rewrite_ru of publisher.py:53-78.  The random emoji choice is
the explicit index emojiIdx into the emoji list. -/
def simple_rewrite_ru (emojiIdx : Nat) (title summary : String) : String :=
  let title := strip_html title
  let summary := strip_html summary
  let title := remove_urls title
  let summary := remove_urls summary
  let title := remove_source_refs title
  let summary := remove_source_refs summary
  let title := if looks_ru title then stripLatin title else title
  let summary := if looks_ru summary then stripLatin summary else summary
  let title := normalizeWs title
  let summary := normalizeWs summary
  let title := if title = "" then "Новость" else title
  let emoji := emojis.getD (emojiIdx % emojis.length) "🔥"
  let main_text := emoji ++ " " ++ title
  let summary := if summary ≠ "" ∧ 400 < summary.length
    then rsplitDotHead (pyTake summary 400) ++ "." else summary
  let main_text := if summary ≠ "" then main_text ++ "\n\n" ++ summary else main_text
  let market_impact := generate_market_impact title summary
  if market_impact ≠ "" then main_text ++ "\n\n💡 " ++ market_impact else main_text

/-- The remainder of the text after the first case-insensitive occurrence
of the pattern, if any. -/
def findCiSub (pat : List Char) : Nat → List Char → Option (List Char)
  | 0, _ => none
  | _, [] => none
  | fuel + 1, l =>
    match dropCi pat l with
    | some r => some r
    | none =>
      match l with
      | [] => none
      | _ :: t => findCiSub pat fuel t

/-- re.sub(r"(?is).*?Текст:\s*", "", out): drop everything through each
occurrence of Текст: (case-insensitive) and the whitespace after it. -/
def removeUptoTekstAux : Nat → List Char → List Char
  | 0, l => l
  | fuel + 1, l =>
    match findCiSub "Текст:".data l.length l with
    | none => l
    | some r => removeUptoTekstAux fuel (r.dropWhile pyIsSpace)

def removeUptoTekst (s : String) : String :=
  pyStrip (String.mk (removeUptoTekstAux s.data.length s.data))

/-- hf_rewrite_to_ru of publisher.py:94-139.  With the repository
configuration HF_TOKEN is empty, so the function returns None before any
network call; the hfOut oracle stands for the generated_text the API
would return on the dead branch. -/
def hf_rewrite_to_ru (hfOut : Option String) (title summary : String) : Option String :=
  if HF_TOKEN = "" then none
  else
    let title := remove_urls (strip_html title)
    let summary := remove_urls (strip_html summary)
    let src := if summary ≠ "" then (if title ≠ "" then title ++ ". " ++ summary else summary)
      else title
    let src := pyStrip src
    if src = "" then none
    else
      match hfOut with
      | none => none
      | some out =>
        let out := remove_urls (strip_html out)
        let out := remove_source_refs out
        let out := removeUptoTekst out
        if out = "" ∨ ¬ looks_ru out then none
        else some (truncate out REWRITE_MAX_CHARS)

inductive Photo
  | url (u : String)
  | file (path : String)
deriving DecidableEq, Repr

/-- The four-way classification of one send_photo attempt
(publisher.py:168-194): success, TelegramRetryAfter with its wait,
TelegramBadRequest, TelegramServerError, or an unclassified exception. -/
inductive TGOutcome
  | success
  | retryAfter (wait : Nat)
  | badRequest
  | serverError
  | otherExc
deriving DecidableEq, Repr

/-- The caption construction of publisher.py:152-156: the HF rewrite when
it yields a non-empty text, else the heuristic rewrite, truncated to the
caption limit. -/
def build_caption (hfOut : Option String) (emojiIdx : Nat) (title summary : String) : String :=
  let ru_text := match hf_rewrite_to_ru hfOut title summary with
    | some t => if t = "" then simple_rewrite_ru emojiIdx title summary else t
    | none => simple_rewrite_ru emojiIdx title summary
  truncate ru_text CAPTION_LIMIT

/-- The retry loop of publish_post_with_retry (publisher.py:168-197)
with attempt ceiling n: the first Nat argument is the number of loop
iterations left (the for loop over range(n) starts with n), the second
the current attempt index; att is the downstream response per attempt.
The result is (success, attempts made, sleeps performed in order).
RetryAfter sleeps wait+5 and consumes an attempt slot; server and
unclassified errors sleep the fixed delay except after the final
attempt; a bad request stops at once; an exhausted loop is failure. -/
def pubGo (att : Nat → TGOutcome) (n : Nat) : Nat → Nat → Bool × Nat × List Nat
  | 0, _ => (false, 0, [])
  | fuel + 1, i =>
    match att i with
    | .success => (true, 1, [])
    | .badRequest => (false, 1, [])
    | .retryAfter w =>
      let r := pubGo att n fuel (i + 1)
      (r.1, r.2.1 + 1, (w + 5) :: r.2.2)
    | .serverError =>
      let r := pubGo att n fuel (i + 1)
      (r.1, r.2.1 + 1, (if i < n - 1 then [TELEGRAM_RETRY_DELAY] else []) ++ r.2.2)
    | .otherExc =>
      let r := pubGo att n fuel (i + 1)
      (r.1, r.2.1 + 1, (if i < n - 1 then [TELEGRAM_RETRY_DELAY] else []) ++ r.2.2)

/-- publish_post_with_retry of publisher.py:141-197: build the caption,
reject a missing or too-short caption before any attempt, else pick the
photo source and run the attempt loop. -/
def publish_post_with_retry (hfOut : Option String) (emojiIdx : Nat)
    (att : Photo → String → Nat → TGOutcome)
    (title summary image_url : String) : Bool × Nat × List Nat :=
  let caption := build_caption hfOut emojiIdx title summary
  if caption = "" ∨ caption.length < 10 then (false, 0, [])
  else
    let photo := if image_url ≠ "" then Photo.url image_url else Photo.file DEFAULT_IMAGE_PATH
    pubGo (att photo caption) TELEGRAM_RETRY_ATTEMPTS TELEGRAM_RETRY_ATTEMPTS 0

/-! ## bot.py -/

/-- The terminal status a cycle stores in last_check_status. -/
inductive CycleStatus
  | OK
  | NO_NEW_POSTS
  | LIMIT_REACHED
  | ERROR
deriving DecidableEq, Repr

/-- The candidate loop of post_cycle (bot.py:108-138): stop at the
per-run limit, skip already-posted uids, and on a successful publish mark
the ledger and bump the counter before the next candidate.  pub is the
overall boolean outcome of publish_post_with_retry for the item (an
exception escaping a publish is caught and acts as a failure).  The third
component records the uids for which a delivery attempt was made. -/
def cycleLoop (pub : Item → Bool) (today : String) (now : Nat) (limit : Nat) :
    DB → List Item → Nat → DB × Nat × List String
  | db, [], n => (db, n, [])
  | db, it :: rest, n =>
    if limit ≤ n then (db, n, [])
    else if is_posted db it.uid then cycleLoop pub today now limit db rest n
    else if pub it then
      let db2 := increment_today_posts (mark_posted db it.uid now it.title it.link) today
      let r := cycleLoop pub today now limit db2 rest (n + 1)
      (r.1, r.2.1, it.uid :: r.2.2)
    else
      let r := cycleLoop pub today now limit db rest n
      (r.1, r.2.1, it.uid :: r.2.2)

structure CycleResult where
  db : DB
  posted_count : Nat
  status : CycleStatus
  attempted : List String
deriving Repr

/-- post_cycle of bot.py:83-152: refuse when the daily ceiling is
reached, else fetch candidates (with the per-cycle ceiling of 30 passed
at bot.py:103) and deliver up to min(per-check ceiling, remaining
quota). -/
def post_cycle (db : DB) (today : String) (now : Nat)
    (parse : String → Nat → ParsedFeed) (og : String → String)
    (pub : Item → Bool) : CycleResult :=
  let today_count := get_today_posts_count db today
  if MAX_POSTS_PER_DAY ≤ today_count then ⟨db, 0, .LIMIT_REACHED, []⟩
  else
    let limit_this_run := min MAX_POSTS_PER_CHECK (MAX_POSTS_PER_DAY - today_count)
    let fr := fetch_items db now RSS_FEEDS 30 parse og
    let r := cycleLoop pub today now limit_this_run fr.1 fr.2 0
    ⟨r.1, r.2.1, if 0 < r.2.1 then .OK else .NO_NEW_POSTS, r.2.2⟩

/-- The external input of one scheduled cycle: the clock, the feed parse
results, the page-image lookups and the per-item publish outcomes. -/
structure CycleIn where
  now : Nat
  parse : String → Nat → ParsedFeed
  og : String → String
  pub : Item → Bool

/-- A run of consecutive cycles within one calendar day, as the scheduler
loop performs; yields the final store and, per cycle, the delivered count
and the uids attempted. -/
def runCycles (db : DB) (today : String) : List CycleIn → DB × List (Nat × List String)
  | [] => (db, [])
  | c :: cs =>
    let r := post_cycle db today c.now c.parse c.og c.pub
    let rest := runCycles r.db today cs
    (rest.1, (r.posted_count, r.attempted) :: rest.2)

/-! ## Store lemmas -/

theorem statLookup_statIncr (l : List (String × Nat)) (d : String) :
    statLookup (statIncr l d) d = statLookup l d + 1 := by
  induction l with
  | nil => simp [statIncr, statLookup]
  | cons p l ih =>
    by_cases hp : (p.1 == d) = true
    · simp [statIncr, statLookup, hp]
    · simp [statIncr, statLookup, hp, ih]

theorem count_increment (db : DB) (today : String) :
    get_today_posts_count (increment_today_posts db today) today =
      get_today_posts_count db today + 1 := by
  unfold increment_today_posts get_today_posts_count
  exact statLookup_statIncr db.daily_stats today

theorem mark_posted_daily (db : DB) (uid : String) (now : Nat) (t l : String) :
    (mark_posted db uid now t l).daily_stats = db.daily_stats := by
  unfold mark_posted; split <;> rfl

theorem mark_posted_failed (db : DB) (uid : String) (now : Nat) (t l : String) :
    (mark_posted db uid now t l).failed_sources = db.failed_sources := by
  unfold mark_posted; split <;> rfl

theorem increment_posted (db : DB) (today : String) :
    (increment_today_posts db today).posted = db.posted := rfl

theorem increment_failed (db : DB) (today : String) :
    (increment_today_posts db today).failed_sources = db.failed_sources := rfl

theorem suspLookup_suspReplace (l : List (String × SuspRow)) (u : String) (r : SuspRow) :
    suspLookup (suspReplace l u r) u = some r := by
  induction l with
  | nil => simp [suspReplace, suspLookup]
  | cons p l ih =>
    by_cases hp : (p.1 == u) = true
    · simp [suspReplace, suspLookup, hp]
    · simp [suspReplace, suspLookup, hp, ih]

theorem available_after_mark (db : DB) (url : String) (b t q : Nat) :
    is_source_available (mark_source_failed db url b t) url q = decide (t + b ≤ q) := by
  unfold is_source_available mark_source_failed
  simp [suspLookup_suspReplace]

theorem mark_source_failed_posted (db : DB) (url : String) (b t : Nat) :
    (mark_source_failed db url b t).posted = db.posted := rfl

theorem mark_source_failed_daily (db : DB) (url : String) (b t : Nat) :
    (mark_source_failed db url b t).daily_stats = db.daily_stats := rfl

theorem is_posted_mark (db : DB) (uid u : String) (now : Nat) (t l : String)
    (h : is_posted db u = true) : is_posted (mark_posted db uid now t l) u = true := by
  unfold mark_posted
  split
  · exact h
  · unfold is_posted at h ⊢
    simp only [List.any_append, h, Bool.true_or]

theorem count_eq_of_daily_eq (db db' : DB) (today : String)
    (h : db'.daily_stats = db.daily_stats) :
    get_today_posts_count db' today = get_today_posts_count db today := by
  unfold get_today_posts_count; rw [h]

theorem is_posted_eq_of_posted_eq (db db' : DB) (u : String)
    (h : db'.posted = db.posted) : is_posted db' u = is_posted db u := by
  unfold is_posted; rw [h]

/-! ## Delivery-loop lemmas (bot.py:108-138) -/

theorem cycleLoop_spec (pub : Item → Bool) (today : String) (now : Nat) (limit : Nat) :
    ∀ (items : List Item) (db : DB) (n : Nat) (db' : DB) (n' : Nat) (att : List String),
      cycleLoop pub today now limit db items n = (db', n', att) →
      n ≤ limit →
      n ≤ n' ∧ n' ≤ limit ∧
      get_today_posts_count db' today + n = get_today_posts_count db today + n' ∧
      (∀ u, is_posted db u = true → is_posted db' u = true) ∧
      (∀ u, is_posted db u = true → u ∉ att) ∧
      db'.failed_sources = db.failed_sources := by
  intro items
  induction items with
  | nil =>
    intro db n db' n' att heq hn
    simp only [cycleLoop, Prod.mk.injEq] at heq
    obtain ⟨rfl, rfl, rfl⟩ := heq
    exact ⟨le_refl _, hn, rfl, fun _ h => h, by simp, rfl⟩
  | cons it rest ih =>
    intro db n db' n' att heq hn
    rw [cycleLoop] at heq
    by_cases hstop : limit ≤ n
    · rw [if_pos hstop] at heq
      simp only [Prod.mk.injEq] at heq
      obtain ⟨rfl, rfl, rfl⟩ := heq
      exact ⟨le_refl _, hn, rfl, fun _ h => h, by simp, rfl⟩
    · rw [if_neg hstop] at heq
      by_cases hip : is_posted db it.uid = true
      · rw [if_pos hip] at heq
        exact ih db n db' n' att heq hn
      · rw [if_neg hip] at heq
        by_cases hpub : pub it = true
        · rw [if_pos hpub] at heq
          dsimp only at heq
          rcases hr : cycleLoop pub today now limit
              (increment_today_posts (mark_posted db it.uid now it.title it.link) today)
              rest (n + 1) with ⟨db2, n2, att2⟩
          rw [hr] at heq
          simp only [Prod.mk.injEq] at heq
          obtain ⟨rfl, rfl, rfl⟩ := heq
          have hn1 : n + 1 ≤ limit := by omega
          obtain ⟨a1, a2, a3, a4, a5, a6⟩ := ih _ _ _ _ _ hr hn1
          have hcincr : get_today_posts_count
              (increment_today_posts (mark_posted db it.uid now it.title it.link) today) today
              = get_today_posts_count db today + 1 := by
            rw [count_increment]
            rw [count_eq_of_daily_eq _ _ today (mark_posted_daily ..)]
          refine ⟨by omega, a2, by omega, ?_, ?_, ?_⟩
          · intro u hu
            exact a4 u (by
              rw [is_posted_eq_of_posted_eq _ _ u (increment_posted ..)]
              exact is_posted_mark db it.uid u now it.title it.link hu)
          · intro u hu
            have hne : u ≠ it.uid := by
              intro hcontra; subst hcontra
              rw [hu] at hip; exact hip rfl
            have hnotin : u ∉ att2 := a5 u (by
              rw [is_posted_eq_of_posted_eq _ _ u (increment_posted ..)]
              exact is_posted_mark db it.uid u now it.title it.link hu)
            simp only [List.mem_cons, not_or]
            exact ⟨hne, hnotin⟩
          · rw [a6, increment_failed, mark_posted_failed]
        · rw [if_neg hpub] at heq
          dsimp only at heq
          rcases hr : cycleLoop pub today now limit db rest n with ⟨db2, n2, att2⟩
          rw [hr] at heq
          simp only [Prod.mk.injEq] at heq
          obtain ⟨rfl, rfl, rfl⟩ := heq
          obtain ⟨a1, a2, a3, a4, a5, a6⟩ := ih _ _ _ _ _ hr hn
          refine ⟨a1, a2, a3, a4, ?_, a6⟩
          intro u hu
          have hne : u ≠ it.uid := by
            intro hcontra; subst hcontra
            rw [hu] at hip; exact hip rfl
          simp only [List.mem_cons, not_or]
          exact ⟨hne, a5 u hu⟩

/-! ## Fetch-layer lemmas (rss_fetcher.py:80-150) -/

theorem fetchGo_fields (now : Nat) (url : String) (lt : Nat) (parse : Nat → ParsedFeed)
    (og : String → String) :
    ∀ (fuel i : Nat) (db : DB),
      (fetchGo db now url lt parse og fuel i).1.posted = db.posted ∧
      (fetchGo db now url lt parse og fuel i).1.daily_stats = db.daily_stats ∧
      (fetchGo db now url lt parse og fuel i).2.1.length ≤ lt := by
  intro fuel
  induction fuel with
  | zero =>
    intro i db
    simp [fetchGo]
  | succ f ih =>
    intro i db
    rw [fetchGo]
    dsimp only
    by_cases hb : (parse i).bozo = true
    · rw [if_pos hb]
      by_cases hlast : i = RSS_RETRY_ATTEMPTS - 1
      · rw [if_pos hlast]
        exact ⟨mark_source_failed_posted .., mark_source_failed_daily .., by simp⟩
      · rw [if_neg hlast]
        obtain ⟨a1, a2, a3⟩ := ih (i + 1) db
        exact ⟨a1, a2, a3⟩
    · rw [if_neg hb]
      refine ⟨rfl, rfl, ?_⟩
      calc (((parse i).entries.take lt).filterMap _).length
          ≤ ((parse i).entries.take lt).length := List.length_filterMap_le _ _
        _ ≤ lt := by simp [List.length_take]

theorem fetch_single_feed_fields (db : DB) (now : Nat) (url : String) (lt : Nat)
    (parse : Nat → ParsedFeed) (og : String → String) :
    (fetch_single_feed db now url lt parse og).1.posted = db.posted ∧
    (fetch_single_feed db now url lt parse og).1.daily_stats = db.daily_stats ∧
    (fetch_single_feed db now url lt parse og).2.1.length ≤ lt := by
  unfold fetch_single_feed
  split
  · simp
  · exact fetchGo_fields now url lt parse og RSS_RETRY_ATTEMPTS 0 db

theorem fetchAll_fields (now : Nat) (lt : Nat) (parse : String → Nat → ParsedFeed)
    (og : String → String) :
    ∀ (urls : List String) (db : DB),
      (fetchAll db now urls lt parse og).1.posted = db.posted ∧
      (fetchAll db now urls lt parse og).1.daily_stats = db.daily_stats ∧
      (fetchAll db now urls lt parse og).2.length ≤ urls.length * lt := by
  intro urls
  induction urls with
  | nil => intro db; simp [fetchAll]
  | cons url rest ih =>
    intro db
    rw [fetchAll]
    dsimp only
    obtain ⟨s1, s2, s3⟩ := fetch_single_feed_fields db now url lt (parse url) og
    obtain ⟨a1, a2, a3⟩ := ih (fetch_single_feed db now url lt (parse url) og).1
    refine ⟨by rw [a1, s1], by rw [a2, s2], ?_⟩
    rw [List.length_append]
    calc (fetch_single_feed db now url lt (parse url) og).2.1.length
          + (fetchAll (fetch_single_feed db now url lt (parse url) og).1
              now rest lt parse og).2.length
        ≤ lt + rest.length * lt := Nat.add_le_add s3 a3
      _ = (url :: rest).length * lt := by simp [List.length_cons]; ring

theorem clear_posted (db : DB) (now : Nat) :
    (clear_available_sources db now).posted = db.posted := rfl

theorem clear_daily (db : DB) (now : Nat) :
    (clear_available_sources db now).daily_stats = db.daily_stats := rfl

/-! ## Dedup lemmas (rss_fetcher.py:144-150) -/

theorem filter_map_replace_ne (l : List Item) (it : Item) (u : String)
    (hne : (it.uid == u) = false) :
    (l.map fun j => if j.uid == it.uid then it else j).filter (fun j => j.uid == u)
      = l.filter (fun j => j.uid == u) := by
  induction l with
  | nil => rfl
  | cons x xs ihx =>
    simp only [List.map_cons, List.filter_cons]
    by_cases hx : (x.uid == it.uid) = true
    · have hxu : (x.uid == u) = false := by
        have h1 : x.uid = it.uid := by simpa using hx
        have h2 : ¬ it.uid = u := by simpa using hne
        simp [h1, h2]
      rw [if_pos hx]
      simp only [hne, hxu, Bool.false_eq_true, if_false]
      exact ihx
    · rw [if_neg hx]
      by_cases hxu : (x.uid == u) = true
      · simp only [hxu, if_true]
        rw [ihx]
      · simp only [hxu, Bool.false_eq_true, if_false]
        exact ihx

theorem filter_map_replace_eq (l : List Item) (it : Item) (u : String)
    (hiu : (it.uid == u) = true) :
    (l.map fun j => if j.uid == it.uid then it else j).filter (fun j => j.uid == u)
      = (l.filter (fun j => j.uid == u)).map (fun _ => it) := by
  have hu : it.uid = u := by simpa using hiu
  induction l with
  | nil => rfl
  | cons x xs ihx =>
    simp only [List.map_cons, List.filter_cons]
    by_cases hx : (x.uid == it.uid) = true
    · have hxu : (x.uid == u) = true := by
        have h1 : x.uid = it.uid := by simpa using hx
        simp [h1, hu]
      rw [if_pos hx]
      simp only [hiu, hxu, if_true, List.map_cons]
      rw [ihx]
    · have hxu : (x.uid == u) = false := by
        have h1 : ¬ x.uid = it.uid := by simpa using hx
        rw [hu] at h1
        simp [h1]
      rw [if_neg hx]
      simp only [hxu, Bool.false_eq_true, if_false]
      exact ihx

theorem filter_upsert_ne (acc : List Item) (it : Item) (u : String)
    (hne : (it.uid == u) = false) :
    (upsertUid acc it).filter (fun j => j.uid == u) =
      acc.filter (fun j => j.uid == u) := by
  unfold upsertUid
  split
  · exact filter_map_replace_ne acc it u hne
  · rw [List.filter_append]
    simp [hne]

theorem filter_upsert_eq (acc : List Item) (it : Item) (u : String)
    (hiu : (it.uid == u) = true)
    (hlen : (acc.filter (fun j => j.uid == u)).length ≤ 1) :
    (upsertUid acc it).filter (fun j => j.uid == u) = [it] := by
  have hu : it.uid = u := by simpa using hiu
  unfold upsertUid
  split
  · next hany =>
    rw [filter_map_replace_eq acc it u hiu]
    have hne : acc.filter (fun j => j.uid == u) ≠ [] := by
      rcases List.any_eq_true.mp hany with ⟨x, hx, hxe⟩
      intro hnil
      have hxu : (x.uid == u) = true := by
        have h1 : x.uid = it.uid := by simpa using hxe
        simp [h1, hu]
      have hmem := (List.mem_filter (p := fun j => j.uid == u)).mpr ⟨hx, hxu⟩
      rw [hnil] at hmem
      exact List.not_mem_nil _ hmem
    rcases hfl : acc.filter (fun j => j.uid == u) with _ | ⟨x, t⟩
    · exact absurd hfl hne
    · rcases t with _ | ⟨y, t2⟩
      · rw [hfl]
        rfl
      · rw [hfl] at hlen
        simp at hlen
  · next hany =>
    rw [List.filter_append]
    have hnil : acc.filter (fun j => j.uid == u) = [] := by
      rcases hfl : acc.filter (fun j => j.uid == u) with _ | ⟨x, t⟩
      · exact hfl
      · exfalso
        have hmem : x ∈ acc.filter (fun j => j.uid == u) := by
          rw [hfl]; exact List.mem_cons_self x t
        have hx := List.mem_filter.mp hmem
        have h1 : x.uid = u := by simpa using hx.2
        exact hany (List.any_eq_true.mpr ⟨x, hx.1, by simp [h1, hu]⟩)
    rw [hnil]
    simp [hiu]

theorem dedup_filter_go (u : String) (acc : List Item)
    (hacc : (acc.filter (fun j => j.uid == u)).length ≤ 1) :
    ∀ l : List Item,
    (l.foldl upsertUid acc).filter (fun j => j.uid == u) =
      (match (l.filter (fun j => j.uid == u)).getLast? with
       | some x => [x]
       | none => acc.filter (fun j => j.uid == u)) := by
  intro l
  induction l using List.reverseRecOn with
  | nil => simp
  | append_singleton l it ihl =>
    rw [List.foldl_append, List.foldl_cons, List.foldl_nil]
    by_cases hiu : (it.uid == u) = true
    · have hlen : ((l.foldl upsertUid acc).filter (fun j => j.uid == u)).length ≤ 1 := by
        rw [ihl]
        rcases hg : (l.filter (fun j => j.uid == u)).getLast? with _ | x
        · rw [hg]
          exact hacc
        · rw [hg]
          simp
      rw [filter_upsert_eq _ it u hiu hlen, List.filter_append]
      simp only [List.filter_cons, hiu, if_true, List.filter_nil]
      rw [List.getLast?_concat]
    · have hne : (it.uid == u) = false := by simpa using hiu
      rw [filter_upsert_ne _ it u hne, ihl, List.filter_append]
      simp only [List.filter_cons, hne, Bool.false_eq_true, if_false, List.filter_nil,
        List.append_nil]

/-- Deduplication keeps, for each uid, exactly the last item bearing it,
at the position where the uid first appeared. -/
theorem dedupByUid_filter (l : List Item) (u : String) :
    (dedupByUid l).filter (fun j => j.uid == u) =
      ((l.filter (fun j => j.uid == u)).getLast?).toList := by
  unfold dedupByUid
  rw [dedup_filter_go u [] (by simp) l]
  rcases hg : (l.filter (fun j => j.uid == u)).getLast? with _ | x
  · rw [hg]
    rfl
  · rw [hg]
    rfl

theorem upsertUid_length (acc : List Item) (it : Item) :
    (upsertUid acc it).length ≤ acc.length + 1 := by
  unfold upsertUid
  split
  · simp
  · simp

theorem dedup_length_go : ∀ (l acc : List Item),
    (l.foldl upsertUid acc).length ≤ acc.length + l.length := by
  intro l
  induction l with
  | nil => intro acc; simp
  | cons it rest ih =>
    intro acc
    rw [List.foldl_cons]
    calc (rest.foldl upsertUid (upsertUid acc it)).length
        ≤ (upsertUid acc it).length + rest.length := ih _
      _ ≤ acc.length + 1 + rest.length := by
          have := upsertUid_length acc it
          omega
      _ = acc.length + (it :: rest).length := by simp [List.length_cons]; omega

theorem dedupByUid_length (l : List Item) : (dedupByUid l).length ≤ l.length := by
  unfold dedupByUid
  have := dedup_length_go l []
  simpa using this

/-! ## Cycle lemmas (bot.py:83-152) -/

theorem fetch_items_state (db : DB) (now : Nat) (urls : List String) (lt : Nat)
    (parse : String → Nat → ParsedFeed) (og : String → String) :
    (fetch_items db now urls lt parse og).1.posted = db.posted ∧
    (fetch_items db now urls lt parse og).1.daily_stats = db.daily_stats := by
  unfold fetch_items
  dsimp only
  obtain ⟨a1, a2, a3⟩ := fetchAll_fields now lt parse og urls (clear_available_sources db now)
  exact ⟨by rw [a1]; rfl, by rw [a2]; rfl⟩

theorem post_cycle_spec (db : DB) (today : String) (now : Nat)
    (parse : String → Nat → ParsedFeed) (og : String → String) (pub : Item → Bool) :
    (MAX_POSTS_PER_DAY ≤ get_today_posts_count db today →
      post_cycle db today now parse og pub = ⟨db, 0, CycleStatus.LIMIT_REACHED, []⟩) ∧
    get_today_posts_count (post_cycle db today now parse og pub).db today
      = get_today_posts_count db today + (post_cycle db today now parse og pub).posted_count ∧
    (post_cycle db today now parse og pub).posted_count ≤ MAX_POSTS_PER_CHECK ∧
    (post_cycle db today now parse og pub).posted_count
      ≤ MAX_POSTS_PER_DAY - get_today_posts_count db today ∧
    (∀ u, is_posted db u = true →
      is_posted (post_cycle db today now parse og pub).db u = true) ∧
    (∀ u, is_posted db u = true →
      u ∉ (post_cycle db today now parse og pub).attempted) := by
  unfold post_cycle
  dsimp only
  by_cases hmax : MAX_POSTS_PER_DAY ≤ get_today_posts_count db today
  · rw [if_pos hmax]
    refine ⟨fun _ => rfl, by simp, by simp, by simp, fun u h => h, by simp⟩
  · rw [if_neg hmax]
    dsimp only
    rcases hfr : fetch_items db now RSS_FEEDS 30 parse og with ⟨dbf, items⟩
    have hfd := fetch_items_state db now RSS_FEEDS 30 parse og
    rw [hfr] at hfd
    dsimp only at hfd
    rcases hcl : cycleLoop pub today now
        (min MAX_POSTS_PER_CHECK (MAX_POSTS_PER_DAY - get_today_posts_count db today))
        dbf items 0 with ⟨db2, n2, att2⟩
    dsimp only
    obtain ⟨a1, a2, a3, a4, a5, a6⟩ :=
      cycleLoop_spec pub today now
        (min MAX_POSTS_PER_CHECK (MAX_POSTS_PER_DAY - get_today_posts_count db today))
        items dbf 0 db2 n2 att2 hcl (Nat.zero_le _)
    have hcount : get_today_posts_count dbf today = get_today_posts_count db today :=
      count_eq_of_daily_eq db dbf today hfd.2
    have hpostedf : ∀ u, is_posted dbf u = is_posted db u :=
      fun u => is_posted_eq_of_posted_eq db dbf u hfd.1
    refine ⟨fun h => absurd h hmax, ?_, ?_, ?_, ?_, ?_⟩
    · omega
    · calc n2 ≤ min MAX_POSTS_PER_CHECK (MAX_POSTS_PER_DAY - get_today_posts_count db today) :=
          a2
        _ ≤ MAX_POSTS_PER_CHECK := Nat.min_le_left _ _
    · calc n2 ≤ min MAX_POSTS_PER_CHECK (MAX_POSTS_PER_DAY - get_today_posts_count db today) :=
          a2
        _ ≤ MAX_POSTS_PER_DAY - get_today_posts_count db today := Nat.min_le_right _ _
    · intro u hu
      exact a4 u (by rw [hpostedf u]; exact hu)
    · intro u hu
      exact a5 u (by rw [hpostedf u]; exact hu)

theorem runCycles_spec (today : String) : ∀ (cycles : List CycleIn) (db : DB),
    get_today_posts_count (runCycles db today cycles).1 today
      = get_today_posts_count db today + ((runCycles db today cycles).2.map Prod.fst).sum ∧
    (get_today_posts_count db today ≤ MAX_POSTS_PER_DAY →
      get_today_posts_count db today + ((runCycles db today cycles).2.map Prod.fst).sum
        ≤ MAX_POSTS_PER_DAY) ∧
    (MAX_POSTS_PER_DAY < get_today_posts_count db today →
      ((runCycles db today cycles).2.map Prod.fst).sum = 0) ∧
    (∀ u, is_posted db u = true → is_posted (runCycles db today cycles).1 u = true) ∧
    (∀ u, is_posted db u = true → ∀ p ∈ (runCycles db today cycles).2, u ∉ p.2) := by
  intro cycles
  induction cycles with
  | nil =>
    intro db
    refine ⟨by simp [runCycles], by simp [runCycles], by simp [runCycles],
      fun u h => h, by simp [runCycles]⟩
  | cons c cs ih =>
    intro db
    rw [runCycles]
    dsimp only
    obtain ⟨pc1, pc2, pc3, pc4, pc5, pc6⟩ := post_cycle_spec db today c.now c.parse c.og c.pub
    obtain ⟨iha, ihb, ihc, ihd, ihe⟩ := ih (post_cycle db today c.now c.parse c.og c.pub).db
    refine ⟨?_, ?_, ?_, ?_, ?_⟩
    · simp only [List.map_cons, List.sum_cons]
      omega
    · intro hle
      simp only [List.map_cons, List.sum_cons]
      have hmid : get_today_posts_count (post_cycle db today c.now c.parse c.og c.pub).db today
          ≤ MAX_POSTS_PER_DAY := by omega
      have := ihb hmid
      omega
    · intro hlt
      simp only [List.map_cons, List.sum_cons]
      have hr := pc1 (by omega)
      have hn0 : (post_cycle db today c.now c.parse c.og c.pub).posted_count = 0 := by
        rw [hr]
      have hdb : (post_cycle db today c.now c.parse c.og c.pub).db = db := by
        rw [hr]
      have hS := ihc (by rw [hdb]; exact hlt)
      rw [hdb] at hS
      rw [hdb]
      omega
    · intro u hu
      exact ihd u (pc5 u hu)
    · intro u hu p hp
      rcases List.mem_cons.mp hp with hhead | htail
      · subst hhead
        exact pc6 u hu
      · exact ihe u (pc5 u hu) p htail

theorem fetchGo_all_bozo (now : Nat) (url : String) (lt : Nat) (parse : Nat → ParsedFeed)
    (og : String → String) :
    ∀ (fuel i : Nat), i + fuel = RSS_RETRY_ATTEMPTS → i < RSS_RETRY_ATTEMPTS →
      (∀ j, i ≤ j → j < RSS_RETRY_ATTEMPTS → (parse j).bozo = true) → ∀ db : DB,
      fetchGo db now url lt parse og fuel i =
        (mark_source_failed db url RSS_BACKOFF_TIME now, [], RSS_RETRY_ATTEMPTS - i) := by
  intro fuel
  induction fuel with
  | zero => intro i h1 h2 _ _; omega
  | succ f ih =>
    intro i h1 h2 hall db
    rw [fetchGo]
    dsimp only
    rw [if_pos (hall i le_rfl h2)]
    by_cases hlast : i = RSS_RETRY_ATTEMPTS - 1
    · rw [if_pos hlast]
      have he : RSS_RETRY_ATTEMPTS - i = 1 := by omega
      rw [he]
    · rw [if_neg hlast]
      rw [ih (i + 1) (by omega) (by omega) (fun j hj1 hj2 => hall j (by omega) hj2) db]
      dsimp only
      have he : RSS_RETRY_ATTEMPTS - (i + 1) + 1 = RSS_RETRY_ATTEMPTS - i := by omega
      rw [he]

theorem fetchGo_success (now : Nat) (url : String) (lt : Nat) (parse : Nat → ParsedFeed)
    (og : String → String) :
    ∀ (fuel i j : Nat), j < RSS_RETRY_ATTEMPTS → i ≤ j →
      (∀ k, i ≤ k → k < j → (parse k).bozo = true) → (parse j).bozo = false →
      i + fuel = RSS_RETRY_ATTEMPTS → ∀ db : DB,
      fetchGo db now url lt parse og fuel i =
        (db, ((parse j).entries.take lt).filterMap
          (processEntry
            (pyStrip (if (parse j).feedTitle = "" then url else (parse j).feedTitle)) og),
         j - i + 1) := by
  intro fuel
  induction fuel with
  | zero => intro i j h1 h2 _ _ h5 db; omega
  | succ f ih =>
    intro i j h1 h2 hmid hj h5 db
    rw [fetchGo]
    dsimp only
    by_cases hij : i = j
    · subst hij
      rw [if_neg (by simp [hj])]
      have he : i - i + 1 = 1 := by omega
      rw [he]
    · have hbozo : (parse i).bozo = true := hmid i le_rfl (by omega)
      rw [if_pos hbozo]
      have hlast : ¬ i = RSS_RETRY_ATTEMPTS - 1 := by omega
      rw [if_neg hlast]
      rw [ih (i + 1) j h1 (by omega) (fun k hk1 hk2 => hmid k (by omega) hk2) hj (by omega) db]
      dsimp only
      have he : j - (i + 1) + 1 + 1 = j - i + 1 := by omega
      rw [he]

theorem fetchGo_attempts_pos (db : DB) (now : Nat) (url : String) (lt : Nat)
    (parse : Nat → ParsedFeed) (og : String → String) (fuel i : Nat)
    (h : 1 ≤ fuel) :
    1 ≤ (fetchGo db now url lt parse og fuel i).2.2 := by
  rcases fuel with _ | f
  · omega
  · rw [fetchGo]
    dsimp only
    by_cases hb : (parse i).bozo = true
    · rw [if_pos hb]
      by_cases hlast : i = RSS_RETRY_ATTEMPTS - 1
      · rw [if_pos hlast]
      · rw [if_neg hlast]
        dsimp only
        omega
    · rw [if_neg hb]

/-! ## Publish-loop lemmas (publisher.py:141-197) -/

theorem pubGo_badRequest (att : Nat → TGOutcome) (n fuel i : Nat) (hf : 1 ≤ fuel)
    (hb : att i = TGOutcome.badRequest) :
    pubGo att n fuel i = (false, 1, []) := by
  rcases fuel with _ | f
  · omega
  · rw [pubGo, hb]

theorem pubGo_retry_success (att : Nat → TGOutcome) (n fuel i w : Nat)
    (hf : 2 ≤ fuel) (h0 : att i = TGOutcome.retryAfter w)
    (h1 : att (i + 1) = TGOutcome.success) :
    pubGo att n fuel i = (true, 2, [w + 5]) := by
  rcases fuel with _ | _ | f
  · omega
  · omega
  · have hinner : pubGo att n (f + 1) (i + 1) = (true, 1, []) := by
      rw [pubGo, h1]
    rw [pubGo, h0]
    dsimp only
    rw [hinner]

theorem generate_market_impact_length (t s : String) :
    10 ≤ (generate_market_impact t s).length := by
  unfold generate_market_impact
  dsimp only
  split_ifs <;> decide

theorem append_mi_length (main mi : String) (h : 10 ≤ mi.length) :
    10 ≤ (if mi ≠ "" then main ++ "\n\n💡 " ++ mi else main).length := by
  have hne : mi ≠ "" := by
    intro he
    rw [he] at h
    exact absurd h (by decide)
  rw [if_pos hne, String.length_append, String.length_append]
  omega

theorem simple_rewrite_ru_length (eIdx : Nat) (title summary : String) :
    10 ≤ (simple_rewrite_ru eIdx title summary).length := by
  unfold simple_rewrite_ru
  dsimp only
  exact append_mi_length _ _ (generate_market_impact_length _ _)

theorem truncate_length_ge (s : String) (limit : Nat) (h10 : 10 ≤ s.length)
    (hl : 10 ≤ limit) : 10 ≤ (truncate s limit).length := by
  unfold truncate
  split
  · exact h10
  · next hgt =>
    rw [String.length_append]
    have htake : (pyTake s (limit - 1)).length = limit - 1 := by
      unfold pyTake
      have hd : s.data.length = s.length := rfl
      simp only [String.length, List.length_take]
      omega
    rw [htake]
    have : ("…" : String).length = 1 := by decide
    omega

theorem hf_rewrite_none (hfOut : Option String) (t s : String) :
    hf_rewrite_to_ru hfOut t s = none := by
  unfold hf_rewrite_to_ru
  have h : HF_TOKEN = "" := rfl
  rw [if_pos h]

theorem build_caption_eq (hfOut : Option String) (eIdx : Nat) (t s : String) :
    build_caption hfOut eIdx t s = truncate (simple_rewrite_ru eIdx t s) CAPTION_LIMIT := by
  unfold build_caption
  rw [hf_rewrite_none]

theorem build_caption_length (hfOut : Option String) (eIdx : Nat) (t s : String) :
    10 ≤ (build_caption hfOut eIdx t s).length := by
  rw [build_caption_eq]
  exact truncate_length_ge _ _ (simple_rewrite_ru_length eIdx t s) (by decide)

theorem publish_runs_loop (hfOut : Option String) (eIdx : Nat)
    (att : Photo → String → Nat → TGOutcome) (t s img : String) :
    publish_post_with_retry hfOut eIdx att t s img =
      pubGo (att (if img ≠ "" then Photo.url img else Photo.file DEFAULT_IMAGE_PATH)
        (build_caption hfOut eIdx t s)) TELEGRAM_RETRY_ATTEMPTS TELEGRAM_RETRY_ATTEMPTS 0 := by
  unfold publish_post_with_retry
  dsimp only
  have hlen := build_caption_length hfOut eIdx t s
  have hcond : ¬ (build_caption hfOut eIdx t s = "" ∨
      (build_caption hfOut eIdx t s).length < 10) := by
    intro hc
    rcases hc with hc | hc
    · rw [hc] at hlen
      exact absurd hlen (by decide)
    · omega
  rw [if_neg hcond]

theorem runCycles_append (today : String) : ∀ (pre suf : List CycleIn) (db : DB),
    runCycles db today (pre ++ suf)
      = ((runCycles (runCycles db today pre).1 today suf).1,
         (runCycles db today pre).2 ++ (runCycles (runCycles db today pre).1 today suf).2) := by
  intro pre
  induction pre with
  | nil => intro suf db; simp [runCycles]
  | cons c cs ih =>
    intro suf db
    rw [List.cons_append, runCycles, runCycles]
    dsimp only
    rw [ih]
    simp

theorem filter_idem {α : Type} (p : α → Bool) (l : List α) :
    (l.filter p).filter p = l.filter p := by
  induction l with
  | nil => rfl
  | cons x xs ih =>
    by_cases hx : p x = true
    · simp [List.filter_cons, hx, ih]
    · simp [List.filter_cons, hx, ih]

theorem count_filter_of {α : Type} [BEq α] [LawfulBEq α] (p : α → Bool) (a : α)
    (ha : p a = true) : ∀ l : List α, (l.filter p).count a = l.count a := by
  intro l
  induction l with
  | nil => rfl
  | cons x xs ih =>
    by_cases hx : p x = true
    · simp [List.filter_cons, hx, List.count_cons, ih]
    · have hne : (a == x) = false := by
        rcases hbe : a == x
        · rfl
        · have hax : a = x := eq_of_beq hbe
          subst hax
          exact absurd ha hx
      have hne2 : ¬ x = a := by
        intro he
        subst he
        exact absurd ha hx
      simp [List.filter_cons, hx, List.count_cons, ih, hne, hne2]

/-! ## urllib lemmas towards clean_url_str (rss_fetcher.py:15-24)

The machinery for the clean_url claims: list toolkit (findIdx?,
splitFirst, takeWhile), character classes, the WHATWG sanitisation, the
UTF-8 and percent-coding roundtrips, the parse_qsl/urlencode roundtrip,
the params split stability, and the reconstruction of urlsplit on the
URL that urlunsplit rebuilds from a parse with a nonempty netloc. -/

theorem findIdx?_eq_none_iff {α : Type} (p : α → Bool) (l : List α) :
    l.findIdx? p = none ↔ ∀ x ∈ l, p x = false := by
  induction l with
  | nil => simp
  | cons a t ih =>
    rw [List.findIdx?_cons]
    by_cases h : p a = true
    · simp [h]
    · rw [if_neg h, List.findIdx?_succ]
      simp only [Option.map_eq_none', ih]
      constructor
      · intro hall x hx
        rcases List.mem_cons.mp hx with rfl | hx
        · exact Bool.eq_false_iff.mpr h
        · exact hall x hx
      · intro hall x hx
        exact hall x (List.mem_cons_of_mem a hx)


theorem findIdx?_append_of_none {α : Type} (p : α → Bool) (a b : List α)
    (ha : ∀ x ∈ a, p x = false) :
    (a ++ b).findIdx? p = (b.findIdx? p).map (· + a.length) := by
  induction a with
  | nil => simp
  | cons x t ih =>
    have hx : p x = false := ha x (List.mem_cons_self x t)
    rw [List.cons_append, List.findIdx?_cons, if_neg (by simp [hx]), List.findIdx?_succ,
      ih (fun y hy => ha y (List.mem_cons_of_mem x hy))]
    rcases b.findIdx? p with _ | i
    · rfl
    · simp only [Option.map_some']
      rfl


theorem findIdx?_first {α : Type} (p : α → Bool) (a : List α) (c : α) (b : List α)
    (ha : ∀ x ∈ a, p x = false) (hc : p c = true) :
    (a ++ c :: b).findIdx? p = some a.length := by
  rw [findIdx?_append_of_none p a (c :: b) ha, List.findIdx?_cons, if_pos hc]
  simp


theorem findIdx?_eq_some {α : Type} (p : α → Bool) (l : List α) (i : Nat)
    (h : l.findIdx? p = some i) :
    ∃ pre c post, l = pre ++ c :: post ∧ pre.length = i ∧ p c = true ∧
      ∀ x ∈ pre, p x = false := by
  induction l generalizing i with
  | nil => simp at h
  | cons a t ih =>
    rw [List.findIdx?_cons] at h
    by_cases hp : p a = true
    · rw [if_pos hp] at h
      simp only [Option.some.injEq] at h
      exact ⟨[], a, t, rfl, by simpa using h, hp, by simp⟩
    · rw [if_neg hp, List.findIdx?_succ] at h
      rcases Option.map_eq_some'.mp h with ⟨j, hj, hji⟩
      rcases ih j hj with ⟨pre, c, post, hl, hlen, hc, hpre⟩
      refine ⟨a :: pre, c, post, by rw [hl, List.cons_append], by simp only [List.length_cons, hlen]; omega, hc, ?_⟩
      intro x hx
      rcases List.mem_cons.mp hx with rfl | hx
      · exact Bool.eq_false_iff.mpr hp
      · exact hpre x hx


theorem take_append_cons (a : List Char) (c : Char) (b : List Char) :
    (a ++ c :: b).take a.length = a := List.take_left a (c :: b)


theorem drop_append_cons (a : List Char) (c : Char) (b : List Char) :
    (a ++ c :: b).drop (a.length + 1) = b := by
  have h : a ++ c :: b = (a ++ [c]) ++ b := by simp
  have h2 : (a ++ [c]).length = a.length + 1 := by simp
  rw [h, ← h2, List.drop_left]


theorem splitFirst_eq_none (ch : Char) (l : List Char) (h : ch ∉ l) :
    splitFirst ch l = none := by
  unfold splitFirst
  rw [(findIdx?_eq_none_iff _ _).mpr]
  intro x hx
  simp only [beq_eq_false_iff_ne, ne_eq]
  rintro rfl
  exact h hx


theorem splitFirst_append (ch : Char) (a b : List Char) (ha : ch ∉ a) :
    splitFirst ch (a ++ ch :: b) = some (a, b) := by
  unfold splitFirst
  rw [findIdx?_first (· == ch) a ch b
    (fun x hx => by simp only [beq_eq_false_iff_ne, ne_eq]; rintro rfl; exact ha hx)
    (by simp)]
  simp only [take_append_cons, drop_append_cons]


theorem splitFirst_eq_some (ch : Char) (l : List Char) (a b : List Char)
    (h : splitFirst ch l = some (a, b)) :
    l = a ++ ch :: b ∧ ch ∉ a := by
  unfold splitFirst at h
  rcases hf : l.findIdx? (· == ch) with _ | i
  · rw [hf] at h; simp at h
  · rw [hf] at h
    simp only [Option.some.injEq, Prod.mk.injEq] at h
    obtain ⟨ha, hb⟩ := h
    rcases findIdx?_eq_some _ _ _ hf with ⟨pre, c, post, hl, hlen, hc, hpre⟩
    have hcch : c = ch := by simpa using hc
    subst hcch
    have hta : l.take i = pre := by rw [hl, ← hlen, take_append_cons]
    have htb : l.drop (i + 1) = post := by rw [hl, ← hlen, drop_append_cons]
    constructor
    · rw [← ha, ← hb, hta, htb, hl]
    · rw [← ha, hta]
      intro hm
      have := hpre _ hm
      simp at this


theorem drop_length_takeWhile {α : Type} (p : α → Bool) (l : List α) :
    l.drop (l.takeWhile p).length = l.dropWhile p := by
  induction l with
  | nil => rfl
  | cons a t ih =>
    rw [List.takeWhile_cons, List.dropWhile_cons]
    by_cases h : p a = true
    · rw [if_pos h, if_pos h]
      simpa using ih
    · rw [if_neg h, if_neg h]
      rfl


theorem takeWhile_append_stop {α : Type} (p : α → Bool) (a b : List α)
    (ha : ∀ x ∈ a, p x = true)
    (hb : b = [] ∨ ∃ c t, b = c :: t ∧ p c = false) :
    (a ++ b).takeWhile p = a ∧ (a ++ b).dropWhile p = b := by
  induction a with
  | nil =>
    rcases hb with rfl | ⟨c, t, rfl, hc⟩
    · simp
    · simp [List.takeWhile_cons, List.dropWhile_cons, hc]
  | cons x s ih =>
    have hx : p x = true := ha x (List.mem_cons_self x s)
    have := ih (fun y hy => ha y (List.mem_cons_of_mem x hy))
    rw [List.cons_append, List.takeWhile_cons, List.dropWhile_cons, if_pos hx, if_pos hx,
      this.1, this.2]
    simp



theorem char_toNat_ofNat (n : Nat) (h : Nat.isValidChar n) : (Char.ofNat n).toNat = n := by
  unfold Char.ofNat
  rw [dif_pos h]
  rfl


theorem char_valid_nat (c : Char) : c.toNat < 0xd800 ∨ (0xdfff < c.toNat ∧ c.toNat < 0x110000) :=
  c.valid


theorem char_toNat_lt (c : Char) : c.toNat < 0x110000 := by
  rcases char_valid_nat c with h | ⟨_, h⟩
  · omega
  · exact h


theorem char_eq_iff_toNat (c d : Char) : c = d ↔ c.toNat = d.toNat := by
  constructor
  · rintro rfl; rfl
  · intro h
    rw [← Char.ofNat_toNat c, ← Char.ofNat_toNat d, h]


theorem isAsciiLetter_iff (c : Char) :
    isAsciiLetter c = true ↔ (65 ≤ c.toNat ∧ c.toNat ≤ 90) ∨ (97 ≤ c.toNat ∧ c.toNat ≤ 122) := by
  simp [isAsciiLetter]


theorem isAsciiDigit_iff (c : Char) :
    isAsciiDigit c = true ↔ 48 ≤ c.toNat ∧ c.toNat ≤ 57 := by
  simp [isAsciiDigit]


theorem isSchemeChar_iff (c : Char) :
    isSchemeChar c = true ↔ (65 ≤ c.toNat ∧ c.toNat ≤ 90) ∨ (97 ≤ c.toNat ∧ c.toNat ≤ 122) ∨
      (48 ≤ c.toNat ∧ c.toNat ≤ 57) ∨ c.toNat = 43 ∨ c.toNat = 45 ∨ c.toNat = 46 := by
  simp only [isSchemeChar, isAsciiLetter, isAsciiDigit, Bool.or_eq_true, decide_eq_true_eq,
    beq_iff_eq, char_eq_iff_toNat]
  have h1 : ('+').toNat = 43 := rfl
  have h2 : ('-').toNat = 45 := rfl
  have h3 : ('.').toNat = 46 := rfl
  rw [h1, h2, h3]
  tauto


theorem quoteSafeChar_iff (c : Char) :
    quoteSafeChar c = true ↔ (65 ≤ c.toNat ∧ c.toNat ≤ 90) ∨ (97 ≤ c.toNat ∧ c.toNat ≤ 122) ∨
      (48 ≤ c.toNat ∧ c.toNat ≤ 57) ∨ c.toNat = 95 ∨ c.toNat = 46 ∨ c.toNat = 45 ∨
      c.toNat = 126 := by
  simp only [quoteSafeChar, isAsciiLetter, isAsciiDigit, Bool.or_eq_true, decide_eq_true_eq,
    beq_iff_eq, char_eq_iff_toNat]
  have h1 : ('_').toNat = 95 := rfl
  have h2 : ('.').toNat = 46 := rfl
  have h3 : ('-').toNat = 45 := rfl
  have h4 : ('~').toNat = 126 := rfl
  rw [h1, h2, h3, h4]
  tauto


theorem toNat_asciiLowerChar (c : Char) :
    (asciiLowerChar c).toNat = if 65 ≤ c.toNat ∧ c.toNat ≤ 90 then c.toNat + 32 else c.toNat := by
  unfold asciiLowerChar
  by_cases h : 65 ≤ c.toNat ∧ c.toNat ≤ 90
  · rw [if_pos h, if_pos h, char_toNat_ofNat]
    left; omega
  · rw [if_neg h, if_neg h]


theorem isAsciiLetter_asciiLowerChar (c : Char) :
    isAsciiLetter (asciiLowerChar c) = isAsciiLetter c := by
  rcases hb : isAsciiLetter c with _ | _
  · rcases hb2 : isAsciiLetter (asciiLowerChar c) with _ | _
    · rfl
    · rw [isAsciiLetter_iff, toNat_asciiLowerChar] at hb2
      rw [← Bool.not_eq_true, isAsciiLetter_iff] at hb
      by_cases h : 65 ≤ c.toNat ∧ c.toNat ≤ 90
      · rw [if_pos h] at hb2; omega
      · rw [if_neg h] at hb2; omega
  · rw [isAsciiLetter_iff, toNat_asciiLowerChar]
    rw [isAsciiLetter_iff] at hb
    by_cases h : 65 ≤ c.toNat ∧ c.toNat ≤ 90
    · rw [if_pos h]; omega
    · rw [if_neg h]; omega


theorem isSchemeChar_asciiLowerChar (c : Char) (h : isSchemeChar c = true) :
    isSchemeChar (asciiLowerChar c) = true := by
  rw [isSchemeChar_iff] at h ⊢
  rw [toNat_asciiLowerChar]
  by_cases hc : 65 ≤ c.toNat ∧ c.toNat ≤ 90
  · rw [if_pos hc]; omega
  · rw [if_neg hc]; omega


theorem asciiLowerChar_idem (c : Char) :
    asciiLowerChar (asciiLowerChar c) = asciiLowerChar c := by
  rw [char_eq_iff_toNat]
  simp only [toNat_asciiLowerChar]
  split_ifs <;> omega


theorem asciiLower_idem (s : String) : asciiLower (asciiLower s) = asciiLower s := by
  unfold asciiLower
  simp only [List.map_map]
  congr 1
  apply List.map_congr_left
  intro c _
  exact asciiLowerChar_idem c


theorem asciiLowerChar_toNat_gt (c : Char) (h : 0x20 < c.toNat) :
    0x20 < (asciiLowerChar c).toNat := by
  rw [toNat_asciiLowerChar]
  by_cases hc : 65 ≤ c.toNat ∧ c.toNat ≤ 90
  · rw [if_pos hc]; omega
  · rw [if_neg hc]; omega


theorem asciiLowerChar_ne_colon (c : Char) (h : isSchemeChar c = true) :
    asciiLowerChar c ≠ ':' := by
  intro he
  have h2 := isSchemeChar_asciiLowerChar c h
  rw [he] at h2
  simp [isSchemeChar_iff] at h2


theorem head_dropWhile {α : Type} (p : α → Bool) (l : List α) :
    l.dropWhile p = [] ∨ ∃ c t, l.dropWhile p = c :: t ∧ p c = false := by
  induction l with
  | nil => left; rfl
  | cons a s ih =>
    rw [List.dropWhile_cons]
    by_cases h : p a = true
    · rw [if_pos h]; exact ih
    · rw [if_neg h]
      right
      exact ⟨a, s, rfl, Bool.eq_false_iff.mpr h⟩


theorem tab_chars (c : Char) :
    (!(c == '\t' || c == '\r' || c == '\n')) = true ↔
      ¬(c.toNat = 9 ∨ c.toNat = 13 ∨ c.toNat = 10) := by
  have h1 : ('\t').toNat = 9 := rfl
  have h2 : ('\r').toNat = 13 := rfl
  have h3 : ('\n').toNat = 10 := rfl
  simp only [Bool.not_eq_eq_eq_not, Bool.not_true, Bool.or_eq_false_iff, beq_eq_false_iff_ne,
    ne_eq, char_eq_iff_toNat, h1, h2, h3]
  tauto


theorem sanitize_no_tab (s : String) (c : Char) (h : c ∈ (sanitizeUrl s).data) :
    ¬(c.toNat = 9 ∨ c.toNat = 13 ∨ c.toNat = 10) := by
  unfold sanitizeUrl at h
  have h2 := List.of_mem_filter h
  exact (tab_chars c).mp h2


theorem sanitize_head (s : String) (c : Char) (t : List Char)
    (h : (sanitizeUrl s).data = c :: t) : 0x20 < c.toNat := by
  unfold sanitizeUrl at h
  rcases head_dropWhile (fun a : Char => decide (a.toNat ≤ 0x20)) s.data with hd | ⟨c0, t0, hd, hc0⟩
  · rw [hd] at h; simp at h
  · rw [hd] at h
    have hgt : 0x20 < c0.toNat := by
      simp only [decide_eq_false_iff_not, not_le] at hc0
      exact hc0
    have hq : (!(c0 == '\t' || c0 == '\r' || c0 == '\n')) = true := by
      rw [tab_chars]
      omega
    rw [List.filter_cons, if_pos hq] at h
    simp only [List.cons.injEq] at h
    rw [← h.1]
    exact hgt


theorem sanitize_stable (v : String)
    (h1 : v.data = [] ∨ ∃ c t, v.data = c :: t ∧ 0x20 < c.toNat)
    (h2 : ∀ c ∈ v.data, ¬(c.toNat = 9 ∨ c.toNat = 13 ∨ c.toNat = 10)) :
    sanitizeUrl v = v := by
  unfold sanitizeUrl
  have hdrop : v.data.dropWhile (fun a : Char => decide (a.toNat ≤ 0x20)) = v.data := by
    rcases h1 with h1 | ⟨c, t, h1, hc⟩
    · rw [h1]; rfl
    · rw [h1, List.dropWhile_cons, if_neg (by simp; omega)]
  rw [hdrop, List.filter_eq_self.mpr]
  intro a ha
  rw [tab_chars]
  exact h2 a ha


theorem toNat_hexDigitUpper (n : Nat) (h : n < 16) :
    (hexDigitUpper n).toNat = if n < 10 then 48 + n else 55 + n := by
  unfold hexDigitUpper
  by_cases h10 : n < 10
  · rw [if_pos h10, if_pos h10, char_toNat_ofNat]
    left; omega
  · rw [if_neg h10, if_neg h10, char_toNat_ofNat]
    left; omega


theorem hexDigitUpper_safe (n : Nat) (h : n < 16) :
    quoteSafeChar (hexDigitUpper n) = true := by
  rw [quoteSafeChar_iff, toNat_hexDigitUpper n h]
  by_cases h10 : n < 10
  · rw [if_pos h10]; omega
  · rw [if_neg h10]; omega


theorem hexVal_hexDigitUpper (n : Nat) (h : n < 16) :
    hexVal (hexDigitUpper n) = some n := by
  unfold hexVal
  rw [toNat_hexDigitUpper n h]
  by_cases h10 : n < 10
  · rw [if_pos h10, if_pos (by omega)]
    congr 1
    omega
  · rw [if_neg h10, if_neg (by omega), if_neg (by omega), if_pos (by omega)]
    congr 1
    omega


theorem utf8EncodeChar_lt (c : Char) (b : Nat) (h : b ∈ utf8EncodeChar c) : b < 256 := by
  have hvalid := char_toNat_lt c
  unfold utf8EncodeChar at h
  by_cases h1 : c.toNat < 0x80
  · rw [if_pos h1] at h
    simp only [List.mem_singleton] at h
    omega
  · rw [if_neg h1] at h
    by_cases h2 : c.toNat < 0x800
    · rw [if_pos h2] at h
      have hd : c.toNat / 64 < 32 := by
        rw [Nat.div_lt_iff_lt_mul (by omega)]
        omega
      have hm : c.toNat % 64 < 64 := Nat.mod_lt _ (by omega)
      simp only [List.mem_cons, List.mem_singleton, List.not_mem_nil, or_false] at h
      rcases h with rfl | rfl <;> omega
    · rw [if_neg h2] at h
      by_cases h3 : c.toNat < 0x10000
      · rw [if_pos h3] at h
        have hd : c.toNat / 4096 < 16 := by
          rw [Nat.div_lt_iff_lt_mul (by omega)]
          omega
        have hm1 : c.toNat / 64 % 64 < 64 := Nat.mod_lt _ (by omega)
        have hm2 : c.toNat % 64 < 64 := Nat.mod_lt _ (by omega)
        simp only [List.mem_cons, List.not_mem_nil, or_false] at h
        rcases h with rfl | rfl | rfl <;> omega
      · rw [if_neg h3] at h
        have hd : c.toNat / 262144 < 5 := by
          rw [Nat.div_lt_iff_lt_mul (by omega)]
          omega
        have hm1 : c.toNat / 4096 % 64 < 64 := Nat.mod_lt _ (by omega)
        have hm2 : c.toNat / 64 % 64 < 64 := Nat.mod_lt _ (by omega)
        have hm3 : c.toNat % 64 < 64 := Nat.mod_lt _ (by omega)
        simp only [List.mem_cons, List.not_mem_nil, or_false] at h
        rcases h with rfl | rfl | rfl | rfl <;> omega


theorem mem_escape_foldr (bs : List Nat) (c' : Char)
    (h : c' ∈ bs.foldr (fun b acc => '%' :: hexDigitUpper (b / 16) :: hexDigitUpper (b % 16) :: acc) []) :
    c' = '%' ∨ ∃ b ∈ bs, c' = hexDigitUpper (b / 16) ∨ c' = hexDigitUpper (b % 16) := by
  induction bs with
  | nil => simp at h
  | cons b t ih =>
    simp only [List.foldr_cons, List.mem_cons] at h
    rcases h with rfl | rfl | rfl | h
    · left; rfl
    · right; exact ⟨b, List.mem_cons_self b t, Or.inl rfl⟩
    · right; exact ⟨b, List.mem_cons_self b t, Or.inr rfl⟩
    · rcases ih h with h | ⟨b', hb', hc'⟩
      · left; exact h
      · right; exact ⟨b', List.mem_cons_of_mem b hb', hc'⟩


theorem quotePlus_chars (s : String) (c' : Char) (h : c' ∈ (quotePlus s).data) :
    quoteSafeChar c' = true ∨ c' = '+' ∨ c' = '%' := by
  unfold quotePlus at h
  simp only [List.mem_flatten, List.mem_map] at h
  rcases h with ⟨l, ⟨c, _, hfc⟩, hcl⟩
  subst hfc
  unfold quoteChar at hcl
  by_cases hsafe : quoteSafeChar c = true
  · rw [if_pos hsafe] at hcl
    simp only [List.mem_singleton] at hcl
    subst hcl
    left; exact hsafe
  · rw [if_neg hsafe] at hcl
    by_cases hsp : (c == ' ') = true
    · rw [if_pos hsp] at hcl
      simp only [List.mem_singleton] at hcl
      right; left; exact hcl
    · rw [if_neg hsp] at hcl
      rcases mem_escape_foldr _ _ hcl with h | ⟨b, hb, hc'⟩
      · right; right; exact h
      · have hblt := utf8EncodeChar_lt c b hb
        left
        rcases hc' with rfl | rfl
        · exact hexDigitUpper_safe _ (by rw [Nat.div_lt_iff_lt_mul (by omega)]; omega)
        · exact hexDigitUpper_safe _ (Nat.mod_lt _ (by omega))


theorem intercalate_go_data (sep : String) (as : List String) (acc : String) :
    (String.intercalate.go acc sep as).data
      = acc.data ++ (as.map fun a => sep.data ++ a.data).flatten := by
  induction as generalizing acc with
  | nil => simp [String.intercalate.go]
  | cons a t ih =>
    rw [String.intercalate.go, ih]
    simp [String.data_append]


theorem pyUrlencode_chars (l : List (String × String)) (c' : Char)
    (h : c' ∈ (pyUrlencode l).data) :
    quoteSafeChar c' = true ∨ c' = '+' ∨ c' = '%' ∨ c' = '=' ∨ c' = '&' := by
  unfold pyUrlencode at h
  rcases l with _ | ⟨kv, t⟩
  · simp [String.intercalate] at h
  · rw [List.map_cons, String.intercalate, intercalate_go_data] at h
    rw [List.mem_append] at h
    have hfield : ∀ kv2 : String × String,
        c' ∈ (quotePlus kv2.1 ++ "=" ++ quotePlus kv2.2).data →
        quoteSafeChar c' = true ∨ c' = '+' ∨ c' = '%' ∨ c' = '=' ∨ c' = '&' := by
      intro kv2 hm
      rw [String.data_append, String.data_append, List.mem_append, List.mem_append] at hm
      rcases hm with (hm | hm) | hm
      · rcases quotePlus_chars _ _ hm with h | h | h
        · left; exact h
        · right; left; exact h
        · right; right; left; exact h
      · simp only [List.mem_singleton] at hm
        right; right; right; left; exact hm
      · rcases quotePlus_chars _ _ hm with h | h | h
        · left; exact h
        · right; left; exact h
        · right; right; left; exact h
    rcases h with h | h
    · exact hfield kv h
    · simp only [List.mem_flatten, List.mem_map] at h
      rcases h with ⟨l2, ⟨a, ha, hfa⟩, hcl⟩
      subst hfa
      rw [List.mem_append] at hcl
      rcases hcl with hcl | hcl
      · simp only [List.mem_singleton] at hcl
        right; right; right; right; exact hcl
      · rcases ha with ⟨kv2, _, hfa2⟩
        subst hfa2
        exact hfield kv2 hcl


theorem utf8DecodeAux_cons (fuel : Nat) (b : Nat) (bs : List Nat) :
    utf8DecodeAux (fuel + 1) (b :: bs) =
      (let bad := Char.ofNat 0xFFFD :: utf8DecodeAux fuel bs
       if b < 0x80 then Char.ofNat b :: utf8DecodeAux fuel bs
       else if 0xC2 ≤ b ∧ b ≤ 0xDF then
         match bs with
         | b1 :: rest =>
           if 0x80 ≤ b1 ∧ b1 ≤ 0xBF then
             Char.ofNat ((b - 0xC0) * 64 + (b1 - 0x80)) :: utf8DecodeAux fuel rest
           else bad
         | [] => bad
       else if 0xE0 ≤ b ∧ b ≤ 0xEF then
         match bs with
         | b1 :: b2 :: rest =>
           if (0x80 ≤ b1 ∧ b1 ≤ 0xBF) ∧ (0x80 ≤ b2 ∧ b2 ≤ 0xBF) ∧
              (b = 0xE0 → 0xA0 ≤ b1) ∧ (b = 0xED → b1 ≤ 0x9F) then
             Char.ofNat ((b - 0xE0) * 4096 + (b1 - 0x80) * 64 + (b2 - 0x80)) ::
               utf8DecodeAux fuel rest
           else bad
         | _ => bad
       else if 0xF0 ≤ b ∧ b ≤ 0xF4 then
         match bs with
         | b1 :: b2 :: b3 :: rest =>
           if (0x80 ≤ b1 ∧ b1 ≤ 0xBF) ∧ (0x80 ≤ b2 ∧ b2 ≤ 0xBF) ∧ (0x80 ≤ b3 ∧ b3 ≤ 0xBF) ∧
              (b = 0xF0 → 0x90 ≤ b1) ∧ (b = 0xF4 → b1 ≤ 0x8F) then
             Char.ofNat ((b - 0xF0) * 262144 + (b1 - 0x80) * 4096 + (b2 - 0x80) * 64 + (b3 - 0x80)) ::
               utf8DecodeAux fuel rest
           else bad
         | _ => bad
       else bad) := rfl


theorem utf8DecodeAux_encode (c : Char) (bs : List Nat) (fuel : Nat) :
    utf8DecodeAux (fuel + 1) (utf8EncodeChar c ++ bs) = c :: utf8DecodeAux fuel bs := by
  have hvalid : c.toNat < 0xd800 ∨ (0xdfff < c.toNat ∧ c.toNat < 0x110000) := char_valid_nat c
  have hlt : c.toNat < 0x110000 := char_toNat_lt c
  unfold utf8EncodeChar
  by_cases h1 : c.toNat < 0x80
  · rw [if_pos h1]
    rw [List.cons_append, List.nil_append, utf8DecodeAux_cons]
    dsimp only
    rw [if_pos h1, Char.ofNat_toNat]
  · rw [if_neg h1]
    by_cases h2 : c.toNat < 0x800
    · rw [if_pos h2]
      rw [List.cons_append, List.cons_append, List.nil_append, utf8DecodeAux_cons]
      dsimp only
      rw [if_neg (by omega), if_pos (by omega), if_pos (by omega)]
      have he : (0xC0 + c.toNat / 64 - 0xC0) * 64 + (0x80 + c.toNat % 64 - 0x80) = c.toNat := by
        omega
      rw [he, Char.ofNat_toNat]
    · rw [if_neg h2]
      by_cases h3 : c.toNat < 0x10000
      · rw [if_pos h3]
        rw [List.cons_append, List.cons_append, List.cons_append, List.nil_append, utf8DecodeAux_cons]
        dsimp only
        rw [if_neg (by omega), if_neg (by omega), if_pos (by omega), if_pos (by omega)]
        have he : (0xE0 + c.toNat / 4096 - 0xE0) * 4096 + (0x80 + c.toNat / 64 % 64 - 0x80) * 64 +
            (0x80 + c.toNat % 64 - 0x80) = c.toNat := by omega
        rw [he, Char.ofNat_toNat]
      · rw [if_neg h3]
        rw [List.cons_append, List.cons_append, List.cons_append, List.cons_append,
          List.nil_append, utf8DecodeAux_cons]
        dsimp only
        rw [if_neg (by omega), if_neg (by omega), if_neg (by omega), if_pos (by omega),
          if_pos (by omega)]
        have he : (0xF0 + c.toNat / 262144 - 0xF0) * 262144 +
            (0x80 + c.toNat / 4096 % 64 - 0x80) * 4096 +
            (0x80 + c.toNat / 64 % 64 - 0x80) * 64 + (0x80 + c.toNat % 64 - 0x80) = c.toNat := by
          omega
        rw [he, Char.ofNat_toNat]


theorem utf8DecodeAux_flatten (cl : List Char) (fuel : Nat) (h : cl.length ≤ fuel) :
    utf8DecodeAux fuel (cl.map utf8EncodeChar).flatten = cl := by
  induction cl generalizing fuel with
  | nil =>
    rcases fuel with _ | f
    · rfl
    · rfl
  | cons c t ih =>
    rcases fuel with _ | f
    · simp at h
    · rw [List.map_cons, List.flatten_cons, utf8DecodeAux_encode]
      rw [ih f (by simp at h; omega)]


theorem length_le_flatten_encode (cl : List Char) :
    cl.length ≤ (cl.map utf8EncodeChar).flatten.length := by
  induction cl with
  | nil => simp
  | cons c t ih =>
    rw [List.map_cons, List.flatten_cons, List.length_append, List.length_cons]
    have henc : 1 ≤ (utf8EncodeChar c).length := by
      unfold utf8EncodeChar
      dsimp only
      split_ifs <;> simp
    omega


theorem utf8Decode_encode (cl : List Char) : utf8Decode (cl.map utf8EncodeChar).flatten = cl :=
  utf8DecodeAux_flatten cl _ (length_le_flatten_encode cl)


theorem quotePlus_data (s : String) :
    (quotePlus s).data = (s.data.map quoteChar).flatten := rfl


theorem unquotePlusAux_nil (fuel : Nat) (pending : List Nat) :
    unquotePlusAux fuel [] pending = utf8Decode pending.reverse := by
  rcases fuel with _ | f
  · rfl
  · rfl


theorem unquotePlusAux_cons (fuel : Nat) (c : Char) (rest : List Char) (pending : List Nat) :
    unquotePlusAux (fuel + 1) (c :: rest) pending =
      (if c == '%' then
        match rest with
        | h1 :: h2 :: rest2 =>
          match hexVal h1, hexVal h2 with
          | some a, some b => unquotePlusAux fuel rest2 ((a * 16 + b) :: pending)
          | _, _ => utf8Decode pending.reverse ++ '%' :: unquotePlusAux fuel rest []
        | _ => utf8Decode pending.reverse ++ '%' :: unquotePlusAux fuel rest []
      else if c == '+' then utf8Decode pending.reverse ++ ' ' :: unquotePlusAux fuel rest []
      else utf8Decode pending.reverse ++ c :: unquotePlusAux fuel rest []) := rfl


theorem escFoldr_length (bs : List Nat) :
    (bs.foldr (fun b acc => '%' :: hexDigitUpper (b / 16) :: hexDigitUpper (b % 16) :: acc)
      []).length = 3 * bs.length := by
  induction bs with
  | nil => rfl
  | cons b t ih =>
    simp only [List.foldr_cons, List.length_cons, ih, List.length_cons]
    omega


theorem unquote_escRun (bytes : List Nat) (fuel : Nat) (rest : List Char) (pending : List Nat)
    (hb : ∀ b ∈ bytes, b < 256) :
    unquotePlusAux (bytes.length + fuel)
      ((bytes.foldr (fun b acc => '%' :: hexDigitUpper (b / 16) :: hexDigitUpper (b % 16) :: acc)
        []) ++ rest) pending
      = unquotePlusAux fuel rest (bytes.reverse ++ pending) := by
  induction bytes generalizing pending with
  | nil => simp
  | cons b t ih =>
    have hblt : b < 256 := hb b (List.mem_cons_self b t)
    have hdlt : b / 16 < 16 := by omega
    have hmlt : b % 16 < 16 := by omega
    rw [List.foldr_cons, List.cons_append, List.cons_append, List.cons_append]
    have hlen : (b :: t).length + fuel = (t.length + fuel) + 1 := by simp; omega
    rw [hlen, unquotePlusAux_cons, if_pos (by simp)]
    dsimp only
    rw [hexVal_hexDigitUpper _ hdlt, hexVal_hexDigitUpper _ hmlt]
    dsimp only
    have hval : b / 16 * 16 + b % 16 = b := by omega
    rw [hval]
    rw [ih (b :: pending) (fun x hx => hb x (List.mem_cons_of_mem b hx))]
    congr 1
    simp


theorem safeChar_ne_pct_plus (c : Char) (h : quoteSafeChar c = true) :
    c ≠ '%' ∧ c ≠ '+' ∧ c ≠ ' ' := by
  refine ⟨fun he => ?_, fun he => ?_, fun he => ?_⟩ <;> subst he <;> exact absurd h (by decide)


theorem unquote_quote_aux (cs pcs : List Char) (fuel : Nat)
    (hf : (cs.map quoteChar).flatten.length ≤ fuel) :
    unquotePlusAux fuel ((cs.map quoteChar).flatten)
      ((pcs.map utf8EncodeChar).flatten.reverse) = pcs ++ cs := by
  induction cs generalizing pcs fuel with
  | nil =>
    simp only [List.map_nil, List.flatten_nil, List.append_nil]
    rw [unquotePlusAux_nil, List.reverse_reverse, utf8Decode_encode]
  | cons c t ih =>
    rw [List.map_cons, List.flatten_cons]
    by_cases hsafe : quoteSafeChar c = true
    · obtain ⟨hp, hpl, _⟩ := safeChar_ne_pct_plus c hsafe
      have hq : quoteChar c = [c] := by rw [quoteChar, if_pos hsafe]
      rw [List.map_cons, List.flatten_cons, hq] at hf
      rw [hq]
      rcases fuel with _ | f
      · simp at hf
      · rw [List.cons_append, List.nil_append, unquotePlusAux_cons,
          if_neg (by simp [hp]), if_neg (by simp [hpl]),
          List.reverse_reverse, utf8Decode_encode]
        have := ih [] f (by simp at hf ⊢; omega)
        simp only [List.map_nil, List.flatten_nil, List.reverse_nil] at this
        rw [this]
        simp
    · by_cases hsp : (c == ' ') = true
      · have hq : quoteChar c = ['+'] := by rw [quoteChar, if_neg hsafe, if_pos hsp]
        rw [List.map_cons, List.flatten_cons, hq] at hf
        rw [hq]
        rcases fuel with _ | f
        · simp at hf
        · rw [List.cons_append, List.nil_append, unquotePlusAux_cons,
            if_neg (by simp), if_pos (by simp),
            List.reverse_reverse, utf8Decode_encode]
          have := ih [] f (by simp at hf ⊢; omega)
          simp only [List.map_nil, List.flatten_nil, List.reverse_nil] at this
          rw [this]
          have hc : c = ' ' := by simpa using hsp
          rw [hc]
          simp
      · have hq : quoteChar c = (utf8EncodeChar c).foldr
            (fun b acc => '%' :: hexDigitUpper (b / 16) :: hexDigitUpper (b % 16) :: acc) [] := by
          rw [quoteChar, if_neg hsafe, if_neg hsp]
        rw [List.map_cons, List.flatten_cons, hq] at hf
        rw [hq]
        rw [List.length_append, escFoldr_length] at hf
        have henc1 : 1 ≤ (utf8EncodeChar c).length := by
          unfold utf8EncodeChar
          dsimp only
          split_ifs <;> simp
        have hfl : (utf8EncodeChar c).length + (fuel - (utf8EncodeChar c).length) = fuel := by
          omega
        rw [← hfl, unquote_escRun _ _ _ _ (fun b hb => utf8EncodeChar_lt c b hb)]
        have hpend : (utf8EncodeChar c).reverse ++ (pcs.map utf8EncodeChar).flatten.reverse
            = ((pcs ++ [c]).map utf8EncodeChar).flatten.reverse := by
          rw [List.map_append, List.flatten_append, List.reverse_append]
          simp
        rw [hpend, ih (pcs ++ [c]) _ (by omega)]
        simp


theorem unquotePlus_quotePlus (s : String) : unquotePlus (quotePlus s) = s := by
  unfold unquotePlus
  have hd := quotePlus_data s
  have h := unquote_quote_aux s.data [] (quotePlus s).data.length (by rw [hd])
  simp only [List.map_nil, List.flatten_nil, List.reverse_nil, List.nil_append] at h
  rw [hd] at h ⊢
  rw [h]


theorem splitChar_ne_nil (sep : Char) (l : List Char) : splitChar sep l ≠ [] := by
  induction l with
  | nil => simp [splitChar]
  | cons c rest ih =>
    rw [splitChar]
    rcases h : splitChar sep rest with _ | ⟨g, gs⟩
    · simp
    · dsimp only
      by_cases hc : (c == sep) = true
      · rw [if_pos hc]; simp
      · rw [if_neg hc]; simp


theorem splitChar_cons_sep (sep : Char) (rest : List Char) :
    splitChar sep (sep :: rest) = [] :: splitChar sep rest := by
  rw [splitChar]
  rcases h : splitChar sep rest with _ | ⟨g, gs⟩
  · exact absurd h (splitChar_ne_nil sep rest)
  · dsimp only
    rw [if_pos (by simp)]


theorem splitChar_cons_other (sep c : Char) (rest : List Char) (hc : c ≠ sep)
    (g : List Char) (gs : List (List Char)) (h : splitChar sep rest = g :: gs) :
    splitChar sep (c :: rest) = (c :: g) :: gs := by
  rw [splitChar, h]
  dsimp only
  rw [if_neg (by simp [hc])]


theorem splitChar_no_sep (sep : Char) (f : List Char) (hf : sep ∉ f) :
    splitChar sep f = [f] := by
  induction f with
  | nil => rfl
  | cons c rest ih =>
    have hc : c ≠ sep := fun he => hf (he ▸ List.mem_cons_self c rest)
    have hr : splitChar sep rest = [rest] := ih (fun hm => hf (List.mem_cons_of_mem c hm))
    rw [splitChar_cons_other sep c rest hc rest [] hr]


theorem splitChar_first (sep : Char) (f0 rest : List Char) (hf : sep ∉ f0) :
    splitChar sep (f0 ++ sep :: rest) = f0 :: splitChar sep rest := by
  induction f0 with
  | nil => exact splitChar_cons_sep sep rest
  | cons c t ih =>
    have hc : c ≠ sep := fun he => hf (he ▸ List.mem_cons_self c t)
    have ht := ih (fun hm => hf (List.mem_cons_of_mem c hm))
    rcases h : splitChar sep rest with _ | ⟨g, gs⟩
    · exact absurd h (splitChar_ne_nil sep rest)
    · rw [h] at ht
      rw [List.cons_append, splitChar_cons_other sep c _ hc (t) (g :: gs) ht]


theorem splitChar_intercalate (sep : Char) (f0 : List Char) (fs : List (List Char))
    (h0 : sep ∉ f0) (hfs : ∀ f ∈ fs, sep ∉ f) :
    splitChar sep (f0 ++ (fs.map (sep :: ·)).flatten) = f0 :: fs := by
  induction fs generalizing f0 with
  | nil => simpa using splitChar_no_sep sep f0 h0
  | cons f t ih =>
    rw [List.map_cons, List.flatten_cons, List.cons_append]
    have : f0 ++ sep :: (f ++ (t.map (sep :: ·)).flatten)
        = f0 ++ (sep :: f) ++ (t.map (sep :: ·)).flatten := by simp
    rw [← this] at *
    rw [splitChar_first sep f0 _ h0]
    rw [ih f (hfs f (List.mem_cons_self f t)) (fun g hg => hfs g (List.mem_cons_of_mem f hg))]


theorem quotePlus_not_special (s : String) (c0 : Char) (h1 : quoteSafeChar c0 = false)
    (h2 : c0 ≠ '+') (h3 : c0 ≠ '%') : c0 ∉ (quotePlus s).data := by
  intro hm
  rcases quotePlus_chars s c0 hm with h | h | h
  · rw [h1] at h; exact absurd h (by simp)
  · exact h2 h
  · exact h3 h


theorem field_data (k v : String) :
    (quotePlus k ++ "=" ++ quotePlus v).data = (quotePlus k).data ++ '=' :: (quotePlus v).data := by
  rw [String.data_append, String.data_append]
  simp


theorem qsl_field (kv2 : String × String) :
    (if ((quotePlus kv2.1 ++ "=" ++ quotePlus kv2.2).data).isEmpty then none
     else match splitFirst '=' (quotePlus kv2.1 ++ "=" ++ quotePlus kv2.2).data with
       | none => some (unquotePlus (String.mk (quotePlus kv2.1 ++ "=" ++ quotePlus kv2.2).data), "")
       | some (k, v) => some (unquotePlus (String.mk k), unquotePlus (String.mk v)))
      = some kv2 := by
  rw [field_data]
  have hne : (((quotePlus kv2.1).data ++ '=' :: (quotePlus kv2.2).data).isEmpty) = false := by
    rcases h : (quotePlus kv2.1).data with _ | _
    · simp [h]
    · simp [h]
  rw [if_neg (by rw [hne]; simp)]
  rw [splitFirst_append '=' _ _
    (quotePlus_not_special _ '=' (by decide) (by decide) (by decide))]
  dsimp only
  have hmk1 : String.mk (quotePlus kv2.1).data = quotePlus kv2.1 := rfl
  have hmk2 : String.mk (quotePlus kv2.2).data = quotePlus kv2.2 := rfl
  rw [hmk1, hmk2, unquotePlus_quotePlus, unquotePlus_quotePlus]


theorem qsl_fields (ts : List (String × String)) :
    ((ts.map fun kv => (quotePlus kv.1 ++ "=" ++ quotePlus kv.2).data).filterMap fun field =>
      if field.isEmpty then none
      else match splitFirst '=' field with
        | none => some (unquotePlus (String.mk field), "")
        | some (k, v) => some (unquotePlus (String.mk k), unquotePlus (String.mk v))) = ts := by
  induction ts with
  | nil => rfl
  | cons kv3 t2 ih =>
    rw [List.map_cons, List.filterMap_cons, qsl_field kv3, ih]


theorem pyParseQsl_pyUrlencode (l : List (String × String)) :
    pyParseQsl (pyUrlencode l) = l := by
  rcases l with _ | ⟨kv, t⟩
  · rfl
  · unfold pyParseQsl pyUrlencode
    rw [List.map_cons, String.intercalate, intercalate_go_data]
    have hsplit : splitChar '&' ((quotePlus kv.1 ++ "=" ++ quotePlus kv.2).data ++
        ((t.map fun kv => quotePlus kv.1 ++ "=" ++ quotePlus kv.2).map
          fun a => ("&" : String).data ++ a.data).flatten)
        = (quotePlus kv.1 ++ "=" ++ quotePlus kv.2).data ::
          (t.map fun kv => (quotePlus kv.1 ++ "=" ++ quotePlus kv.2).data) := by
      have hmapmap : ((t.map fun kv => quotePlus kv.1 ++ "=" ++ quotePlus kv.2).map
          fun a => ("&" : String).data ++ a.data)
          = ((t.map fun kv => (quotePlus kv.1 ++ "=" ++ quotePlus kv.2).data).map
            fun f => '&' :: f) := by
        rw [List.map_map, List.map_map]
        rfl
      rw [hmapmap]
      apply splitChar_intercalate
      · rw [field_data]
        intro hm
        rcases List.mem_append.mp hm with hm | hm
        · exact quotePlus_not_special _ '&' (by decide) (by decide) (by decide) hm
        · rcases List.mem_cons.mp hm with he | hm
          · exact absurd he (by decide)
          · exact quotePlus_not_special _ '&' (by decide) (by decide) (by decide) hm
      · intro f hf
        rcases List.mem_map.mp hf with ⟨kv2, _, hfe⟩
        subst hfe
        rw [field_data]
        intro hm
        rcases List.mem_append.mp hm with hm | hm
        · exact quotePlus_not_special _ '&' (by decide) (by decide) (by decide) hm
        · rcases List.mem_cons.mp hm with he | hm
          · exact absurd he (by decide)
          · exact quotePlus_not_special _ '&' (by decide) (by decide) (by decide) hm
    rw [hsplit]
    exact qsl_fields (kv :: t)


theorem contains_iff_mem (l : List Char) (c : Char) : l.contains c = true ↔ c ∈ l := by
  simp [List.contains]


theorem lastSlash_decomp (path : List Char) (h : path.contains '/' = true) :
    ∃ A B, path = A ++ '/' :: B ∧ ('/' ∉ B) ∧
      path.length - 1 - ((path.reverse.findIdx? (· == '/')).getD 0) = A.length := by
  have hmem : '/' ∈ path.reverse := by
    rw [List.mem_reverse]
    exact (contains_iff_mem path '/').mp h
  rcases hf : path.reverse.findIdx? (· == '/') with _ | r
  · rw [findIdx?_eq_none_iff] at hf
    have := hf '/' hmem
    simp at this
  · rcases findIdx?_eq_some _ _ _ hf with ⟨pre, c, post, hrev, hlen, hc, hpre⟩
    have hcc : c = '/' := by simpa using hc
    subst hcc
    refine ⟨post.reverse, pre.reverse, ?_, ?_, ?_⟩
    · have := congrArg List.reverse hrev
      rw [List.reverse_reverse] at this
      rw [this]
      rw [List.reverse_append, List.reverse_cons]
      simp
    · rw [List.mem_reverse]
      intro hm
      have := hpre '/' hm
      simp at this
    · have hL : path.length = pre.length + 1 + post.length := by
        have hc2 := congrArg List.length hrev
        simp only [List.length_reverse, List.length_append, List.length_cons] at hc2
        omega
      simp only [Option.getD_some, List.length_reverse]
      omega


theorem splitFirst_none_not_mem (ch : Char) (l : List Char) (h : splitFirst ch l = none) :
    ch ∉ l := by
  unfold splitFirst at h
  rcases hf : l.findIdx? (· == ch) with _ | i
  · rw [findIdx?_eq_none_iff] at hf
    intro hm
    have := hf ch hm
    simp at this
  · rw [hf] at h
    simp at h


theorem pySplitParams_rejoin (path : List Char) (a b : String)
    (h : pySplitParams path = (a, b)) (hb : b ≠ "") :
    a.data ++ ';' :: b.data = path := by
  unfold pySplitParams at h
  by_cases h1 : path.contains ';' = true
  · rw [if_pos h1] at h
    by_cases h2 : path.contains '/' = true
    · rw [if_pos h2] at h
      rcases lastSlash_decomp path h2 with ⟨A, B, hpath, hB, hls⟩
      rw [hls] at h
      dsimp only at h
      have hdrop : path.drop A.length = '/' :: B := by
        rw [hpath, List.drop_left' rfl]
      rw [hdrop] at h
      rcases hfi : ('/' :: B).findIdx? (· == ';') with _ | j
      · rw [hfi] at h
        simp only [Prod.mk.injEq] at h
        exact absurd h.2.symm hb
      · rw [hfi] at h
        simp only [Prod.mk.injEq] at h
        obtain ⟨ha, hbv⟩ := h
        rcases findIdx?_eq_some _ _ _ hfi with ⟨pre, c, post, hsb, hlen, hc, hpre⟩
        have hcc : c = ';' := by simpa using hc
        subst hcc
        have hpath2 : path = (A ++ pre) ++ ';' :: post := by
          rw [hpath, hsb]
          simp
        have hlen2 : (A ++ pre).length = A.length + j := by
          simp [List.length_append, hlen]
        have htake : path.take (A.length + j) = A ++ pre := by
          rw [hpath2, ← hlen2, take_append_cons]
        have hdrop2 : path.drop (A.length + j + 1) = post := by
          rw [hpath2, ← hlen2, drop_append_cons]
        rw [← ha, ← hbv]
        show path.take (A.length + j) ++ ';' :: path.drop (A.length + j + 1) = path
        rw [htake, hdrop2]
        exact hpath2.symm
    · rw [if_neg h2] at h
      rcases hsf : splitFirst ';' path with _ | ⟨a2, b2⟩
      · have := splitFirst_none_not_mem ';' path hsf
        exact absurd ((contains_iff_mem path ';').mp h1) this
      · rw [hsf] at h
        simp only [Prod.mk.injEq] at h
        obtain ⟨ha, hbv⟩ := h
        obtain ⟨hp, _⟩ := splitFirst_eq_some ';' path a2 b2 hsf
        rw [← ha, ← hbv]
        exact hp.symm
  · rw [if_neg h1] at h
    simp only [Prod.mk.injEq] at h
    exact absurd h.2.symm hb


theorem pySplitParams_prefix (path : List Char) (a b : String)
    (h : pySplitParams path = (a, b)) :
    ∃ rest, path = a.data ++ rest := by
  unfold pySplitParams at h
  by_cases h1 : path.contains ';' = true
  · rw [if_pos h1] at h
    by_cases h2 : path.contains '/' = true
    · rw [if_pos h2] at h
      rcases lastSlash_decomp path h2 with ⟨A, B, hpath, hB, hls⟩
      rw [hls] at h
      dsimp only at h
      have hdrop : path.drop A.length = '/' :: B := by
        rw [hpath, List.drop_left' rfl]
      rw [hdrop] at h
      rcases hfi : ('/' :: B).findIdx? (· == ';') with _ | j
      · rw [hfi] at h
        simp only [Prod.mk.injEq] at h
        exact ⟨[], by rw [← h.1]; simp⟩
      · rw [hfi] at h
        simp only [Prod.mk.injEq] at h
        obtain ⟨ha, hbv⟩ := h
        refine ⟨path.drop (A.length + j), ?_⟩
        rw [← ha]
        exact (List.take_append_drop (A.length + j) path).symm
    · rw [if_neg h2] at h
      rcases hsf : splitFirst ';' path with _ | ⟨a2, b2⟩
      · rw [hsf] at h
        simp only [Prod.mk.injEq] at h
        exact ⟨[], by rw [← h.1]; simp⟩
      · rw [hsf] at h
        simp only [Prod.mk.injEq] at h
        obtain ⟨ha, _⟩ := h
        obtain ⟨hp, _⟩ := splitFirst_eq_some ';' path a2 b2 hsf
        exact ⟨';' :: b2, by rw [← ha]; exact hp⟩
  · rw [if_neg h1] at h
    simp only [Prod.mk.injEq] at h
    exact ⟨[], by rw [← h.1]; simp⟩


theorem pySplitParams_self (path : List Char) (a b : String)
    (h : pySplitParams path = (a, b)) (hb : b = "") :
    pySplitParams a.data = (a, "") := by
  subst hb
  unfold pySplitParams at h
  by_cases h1 : path.contains ';' = true
  · rw [if_pos h1] at h
    by_cases h2 : path.contains '/' = true
    · rw [if_pos h2] at h
      rcases lastSlash_decomp path h2 with ⟨A, B, hpath, hB, hls⟩
      rw [hls] at h
      dsimp only at h
      have hdrop : path.drop A.length = '/' :: B := by
        rw [hpath, List.drop_left' rfl]
      rw [hdrop] at h
      rcases hfi : ('/' :: B).findIdx? (· == ';') with _ | j
      · rw [hfi] at h
        injection h with ha hbv
        subst ha
        show pySplitParams path = (String.mk path, "")
        unfold pySplitParams
        rw [if_pos h1, if_pos h2, hls]
        dsimp only
        rw [hdrop, hfi]
      · rw [hfi] at h
        injection h with ha hbv
        subst ha
        rcases findIdx?_eq_some _ _ _ hfi with ⟨pre, c, post, hsb, hlen, hc, hpre⟩
        have hcc : c = ';' := by simpa using hc
        subst hcc
        have hpre2 : ∃ C, pre = '/' :: C ∧ ';' ∉ C ∧ '/' ∉ C := by
          rcases pre with _ | ⟨p0, C⟩
          · rw [List.nil_append] at hsb
            have hh := congrArg (fun l => List.head? l) hsb
            simp at hh
          · rw [List.cons_append] at hsb
            simp only [List.cons.injEq] at hsb
            refine ⟨C, by rw [hsb.1], ?_, ?_⟩
            · intro hm
              have := hpre ';' (List.mem_cons_of_mem p0 hm)
              simp at this
            · intro hm
              have hBm : '/' ∈ B := by rw [hsb.2]; exact List.mem_append_left _ hm
              exact hB hBm
        rcases hpre2 with ⟨C, hpreC, hCsemi, hCslash⟩
        have htake : path.take (A.length + j) = A ++ '/' :: C := by
          have hpath2 : path = (A ++ pre) ++ ';' :: post := by
            rw [hpath, hsb]
            simp
          have hlen2 : (A ++ pre).length = A.length + j := by
            simp [List.length_append, hlen]
          rw [hpath2, ← hlen2, take_append_cons, hpreC]
        show pySplitParams (String.mk (path.take (A.length + j))).data
          = (String.mk (path.take (A.length + j)), "")
        show pySplitParams (path.take (A.length + j))
          = (String.mk (path.take (A.length + j)), "")
        rw [htake]
        unfold pySplitParams
        by_cases hsemi : (A ++ '/' :: C).contains ';' = true
        · rw [if_pos hsemi,
            if_pos (by rw [contains_iff_mem]; exact List.mem_append_right A (List.mem_cons_self '/' C))]
          have hrev : (A ++ '/' :: C).reverse = C.reverse ++ '/' :: A.reverse := by
            rw [List.reverse_append, List.reverse_cons]
            simp
          have hfidx : (A ++ '/' :: C).reverse.findIdx? (· == '/') = some C.length := by
            rw [hrev]
            rw [findIdx?_first (· == '/') C.reverse '/' A.reverse
              (fun x hx => by
                simp only [beq_eq_false_iff_ne, ne_eq]
                intro he
                subst he
                exact hCslash (List.mem_reverse.mp hx))
              (by simp)]
            simp
          rw [hfidx]
          dsimp only
          simp only [Option.getD_some]
          have hls2 : (A ++ '/' :: C).length - 1 - C.length = A.length := by
            simp only [List.length_append, List.length_cons]
            omega
          rw [hls2]
          have hdrop3 : (A ++ '/' :: C).drop A.length = '/' :: C := by
            rw [List.drop_left' rfl]
          rw [hdrop3]
          have hnone : ('/' :: C).findIdx? (· == ';') = none := by
            rw [findIdx?_eq_none_iff]
            intro x hx
            simp only [beq_eq_false_iff_ne, ne_eq]
            intro he
            subst he
            rcases List.mem_cons.mp hx with he2 | hm
            · exact absurd he2 (by decide)
            · exact hCsemi hm
          rw [hnone]
        · rw [if_neg hsemi]
    · rw [if_neg h2] at h
      rcases hsf : splitFirst ';' path with _ | ⟨a2, b2⟩
      · rw [hsf] at h
        injection h with ha hbv
        subst ha
        show pySplitParams path = (String.mk path, "")
        unfold pySplitParams
        rw [if_pos h1, if_neg h2, hsf]
      · rw [hsf] at h
        injection h with ha hbv
        subst ha
        obtain ⟨hp, hnm⟩ := splitFirst_eq_some ';' path a2 b2 hsf
        show pySplitParams a2 = (String.mk a2, "")
        unfold pySplitParams
        rw [if_neg (by rw [contains_iff_mem]; simpa using hnm)]
  · rw [if_neg h1] at h
    injection h with ha hbv
    subst ha
    show pySplitParams path = (String.mk path, "")
    unfold pySplitParams
    rw [if_neg h1]


theorem schemeChar_ne_colon (c : Char) (h : isSchemeChar c = true) : c ≠ ':' := by
  intro he
  subst he
  exact absurd h (by decide)


theorem schemeChar_no_ctl (c : Char) (h : isSchemeChar c = true) :
    ¬(c.toNat = 9 ∨ c.toNat = 13 ∨ c.toNat = 10) := by
  rw [isSchemeChar_iff] at h
  omega


theorem string_eq_empty_iff (s : String) : s = "" ↔ s.data = [] := by
  constructor
  · rintro rfl
    rfl
  · intro h
    rcases s with ⟨d⟩
    dsimp at h
    subst h
    rfl


theorem string_ne_empty_iff (s : String) : s ≠ "" ↔ s.data ≠ [] :=
  not_congr (string_eq_empty_iff s)


theorem schemeOf_build (sc : String) (body : List Char)
    (_hne : sc.data ≠ [])
    (halpha : ∃ c0 t0, sc.data = c0 :: t0 ∧ isAsciiLetter c0 = true)
    (hchars : ∀ c ∈ sc.data, isSchemeChar c = true)
    (hlower : asciiLower sc = sc) :
    schemeOf (sc.data ++ ':' :: body) = (sc, body) := by
  unfold schemeOf
  have hfi : (sc.data ++ ':' :: body).findIdx? (· == ':') = some sc.data.length := by
    apply findIdx?_first
    · intro x hx
      simp only [beq_eq_false_iff_ne, ne_eq]
      exact schemeChar_ne_colon x (hchars x hx)
    · simp
  rw [hfi]
  dsimp only
  rcases halpha with ⟨c0, t0, hsc, hc0⟩
  have hhead : (sc.data ++ ':' :: body).head? = some c0 := by
    rw [hsc]
    simp
  have htake : (sc.data ++ ':' :: body).take sc.data.length = sc.data := take_append_cons _ _ _
  have hcond : (decide (0 < sc.data.length) &&
      (match (sc.data ++ ':' :: body).head? with
        | some c => isAsciiLetter c | none => false) &&
      ((sc.data ++ ':' :: body).take sc.data.length).all isSchemeChar) = true := by
    rw [hhead, htake]
    simp only [Bool.and_eq_true, decide_eq_true_eq, List.all_eq_true]
    refine ⟨⟨?_, hc0⟩, hchars⟩
    rw [hsc]
    simp
  rw [if_pos hcond, htake, drop_append_cons]
  have hmk : String.mk sc.data = sc := rfl
  rw [hmk, hlower]


theorem schemeOf_not_alpha (l : List Char)
    (h : l = [] ∨ ∃ c0 t0, l = c0 :: t0 ∧ isAsciiLetter c0 = false) :
    schemeOf l = ("", l) := by
  unfold schemeOf
  rcases hfi : l.findIdx? (· == ':') with _ | i
  · rfl
  · dsimp only
    have hhead : (match l.head? with | some c => isAsciiLetter c | none => false) = false := by
      rcases h with rfl | ⟨c0, t0, rfl, hc0⟩
      · rfl
      · simpa using hc0
    have hcond : ¬ ((decide (0 < i) &&
        (match l.head? with | some c => isAsciiLetter c | none => false) &&
        (l.take i).all isSchemeChar) = true) := by
      rw [hhead]
      simp
    rw [if_neg hcond]


theorem netlocOf_build (nl : String) (tail : List Char)
    (hnl : ∀ c ∈ nl.data, (!(c == '/' || c == '?' || c == '#')) = true)
    (htail : tail = [] ∨ ∃ c0 t0, tail = c0 :: t0 ∧
      (!(c0 == '/' || c0 == '?' || c0 == '#')) = false) :
    netlocOf ('/' :: '/' :: (nl.data ++ tail)) = (nl, tail) := by
  unfold netlocOf
  rw [if_pos (by simp)]
  dsimp only
  have hsplit := takeWhile_append_stop (fun c => !(c == '/' || c == '?' || c == '#'))
    nl.data tail hnl (by
      rcases htail with rfl | ⟨c0, t0, rfl, hc0⟩
      · left; rfl
      · right; exact ⟨c0, t0, rfl, hc0⟩)
  have hdrop2 : ('/' :: '/' :: (nl.data ++ tail)).drop 2 = nl.data ++ tail := rfl
  rw [hdrop2, hsplit.1]
  have hmk : String.mk nl.data = nl := rfl
  rw [hmk]
  rw [List.drop_left]


theorem netlocOf_not_dslash (l1 : List Char) (h : l1.take 2 ≠ ['/', '/']) :
    netlocOf l1 = ("", l1) := by
  unfold netlocOf
  rw [if_neg h]


theorem mem_of_mem_takeWhile {α : Type} (p : α → Bool) (l : List α) (x : α)
    (h : x ∈ l.takeWhile p) : x ∈ l := by
  rw [← List.takeWhile_append_dropWhile p l]
  exact List.mem_append_left _ h


theorem schemeOf_inv (l : List Char) (sc : String) (l1 : List Char)
    (h : schemeOf l = (sc, l1)) :
    (∀ c ∈ l1, c ∈ l) ∧
    (sc = "" ∨ (sc.data ≠ [] ∧ (∃ c0 t0, sc.data = c0 :: t0 ∧ isAsciiLetter c0 = true) ∧
      (∀ c ∈ sc.data, isSchemeChar c = true) ∧ asciiLower sc = sc)) := by
  unfold schemeOf at h
  rcases hfi : l.findIdx? (· == ':') with _ | i
  · rw [hfi] at h
    injection h with h1 h2
    exact ⟨fun c hc => by rw [← h2] at hc; exact hc, Or.inl h1.symm⟩
  · rw [hfi] at h
    dsimp only at h
    by_cases hcond : (decide (0 < i) &&
        (match l.head? with | some c => isAsciiLetter c | none => false) &&
        (l.take i).all isSchemeChar) = true
    · rw [if_pos hcond] at h
      injection h with h1 h2
      refine ⟨fun c hc => by rw [← h2] at hc; exact List.mem_of_mem_drop hc, Or.inr ?_⟩
      simp only [Bool.and_eq_true, decide_eq_true_eq, List.all_eq_true] at hcond
      obtain ⟨⟨hpos, hal⟩, hall⟩ := hcond
      rcases findIdx?_eq_some _ _ _ hfi with ⟨pre, cc, post, hl, hlen, hcc, hpre⟩
      have hccc : cc = ':' := by simpa using hcc
      subst hccc
      have htake : l.take i = pre := by rw [hl, ← hlen, take_append_cons]
      subst h1
      have hdata : (asciiLower (String.mk (l.take i))).data = (l.take i).map asciiLowerChar := rfl
      rcases hp : pre with _ | ⟨p0, pre'⟩
      · rw [hp] at hlen
        simp at hlen
        omega
      · have htakec : l.take i = p0 :: pre' := by rw [htake, hp]
        have hhead : l.head? = some p0 := by
          rw [hl, hp]
          rfl
        have halp : isAsciiLetter p0 = true := by
          rw [hhead] at hal
          exact hal
        refine ⟨?_, ?_, ?_, asciiLower_idem _⟩
        · rw [hdata, htakec]
          simp
        · refine ⟨asciiLowerChar p0, pre'.map asciiLowerChar, ?_, ?_⟩
          · rw [hdata, htakec]
            rfl
          · rw [isAsciiLetter_asciiLowerChar]
            exact halp
        · intro c hc
          rw [hdata] at hc
          rcases List.mem_map.mp hc with ⟨c2, hc2, rfl⟩
          exact isSchemeChar_asciiLowerChar c2 (hall c2 hc2)
    · rw [if_neg hcond] at h
      injection h with h1 h2
      exact ⟨fun c hc => by rw [← h2] at hc; exact hc, Or.inl h1.symm⟩


theorem netlocOf_inv (l1 : List Char) (nl : String) (l2 : List Char)
    (h : netlocOf l1 = (nl, l2)) :
    (∀ c ∈ l2, c ∈ l1) ∧
    (∀ c ∈ nl.data, (!(c == '/' || c == '?' || c == '#')) = true) ∧
    (∀ c ∈ nl.data, c ∈ l1) ∧
    (nl ≠ "" → (l2 = [] ∨ ∃ c0 t0, l2 = c0 :: t0 ∧
      (!(c0 == '/' || c0 == '?' || c0 == '#')) = false)) := by
  unfold netlocOf at h
  by_cases hts : l1.take 2 = ['/', '/']
  · rw [if_pos hts] at h
    dsimp only at h
    injection h with h1 h2
    have hnld : nl.data = (l1.drop 2).takeWhile fun c => !(c == '/' || c == '?' || c == '#') := by
      rw [← h1]
    refine ⟨?_, ?_, ?_, ?_⟩
    · intro c hc
      rw [← h2] at hc
      exact List.mem_of_mem_drop (List.mem_of_mem_drop hc)
    · intro c hc
      rw [hnld] at hc
      exact @List.mem_takeWhile_imp _ (fun c => !(c == '/' || c == '?' || c == '#')) _ _ hc
    · intro c hc
      rw [hnld] at hc
      exact List.mem_of_mem_drop (mem_of_mem_takeWhile _ _ _ hc)
    · intro _
      rw [← h2]
      rw [drop_length_takeWhile]
      rcases head_dropWhile (fun c : Char => !(c == '/' || c == '?' || c == '#')) (l1.drop 2)
        with hd | ⟨c0, t0, hd, hc0⟩
      · left; exact hd
      · right; exact ⟨c0, t0, hd, hc0⟩
  · rw [if_neg hts] at h
    injection h with h1 h2
    refine ⟨fun c hc => by rw [← h2] at hc; exact hc, ?_, ?_, ?_⟩
    · rw [← h1]
      intro c hc
      simp at hc
    · rw [← h1]
      intro c hc
      simp at hc
    · intro hne
      rw [← h1] at hne
      exact absurd rfl hne


theorem head_slash_of (pad l2 : List Char) (c0 : Char) (t0 : List Char)
    (hl2 : l2 = c0 :: t0) (hc0 : (!(c0 == '/' || c0 == '?' || c0 == '#')) = false)
    (hpfx : ∃ rest, l2 = pad ++ rest)
    (hq : '?' ∉ pad) (hh : '#' ∉ pad) :
    pad = [] ∨ ∃ t, pad = '/' :: t := by
  rcases pad with _ | ⟨p0, pt⟩
  · left; rfl
  · right
    rcases hpfx with ⟨rest, hr⟩
    rw [hl2, List.cons_append] at hr
    injection hr with he1 he2
    subst he1
    have hor : (c0 == '/' || c0 == '?' || c0 == '#') = true := by
      rcases hb : (c0 == '/' || c0 == '?' || c0 == '#')
      · rw [hb] at hc0
        simp at hc0
      · rfl
    simp only [Bool.or_eq_true, beq_iff_eq] at hor
    rcases hor with (rfl | rfl) | rfl
    · exact ⟨pt, rfl⟩
    · exact absurd (List.mem_cons_self '?' pt) hq
    · exact absurd (List.mem_cons_self '#' pt) hh


theorem pyUrlsplit_inv (u : String) (sc nl pa q fr : String)
    (h : pyUrlsplit u = some (sc, nl, pa, q, fr)) :
    (sc = "" ∨ (sc.data ≠ [] ∧ (∃ c0 t0, sc.data = c0 :: t0 ∧ isAsciiLetter c0 = true) ∧
      (∀ c ∈ sc.data, isSchemeChar c = true) ∧ asciiLower sc = sc)) ∧
    (∀ c ∈ nl.data, (!(c == '/' || c == '?' || c == '#')) = true) ∧
    (∀ c ∈ nl.data, ¬(c.toNat = 9 ∨ c.toNat = 13 ∨ c.toNat = 10)) ∧
    (((nl.data.contains '[' && !nl.data.contains ']') ||
      (nl.data.contains ']' && !nl.data.contains '[')) = false) ∧
    ('?' ∉ pa.data) ∧ ('#' ∉ pa.data) ∧
    (∀ c ∈ pa.data, ¬(c.toNat = 9 ∨ c.toNat = 13 ∨ c.toNat = 10)) ∧
    (∀ c ∈ fr.data, ¬(c.toNat = 9 ∨ c.toNat = 13 ∨ c.toNat = 10)) ∧
    (nl ≠ "" → pa.data = [] ∨ ∃ t, pa.data = '/' :: t) := by
  unfold pyUrlsplit at h
  dsimp only at h
  rcases hS : schemeOf (sanitizeUrl u).data with ⟨sc0, l1⟩
  rw [hS] at h
  dsimp only at h
  rcases hN : netlocOf l1 with ⟨nl0, l2⟩
  rw [hN] at h
  dsimp only at h
  obtain ⟨hSmem, hSfacts⟩ := schemeOf_inv _ _ _ hS
  obtain ⟨hNmem, hNchars, hNmem2, hNhead⟩ := netlocOf_inv _ _ _ hN
  by_cases hbr : ((nl0.data.contains '[' && !nl0.data.contains ']') ||
      (nl0.data.contains ']' && !nl0.data.contains '[')) = true
  · rw [if_pos hbr] at h
    simp at h
  · rw [if_neg hbr] at h
    have hbr2 := Bool.eq_false_iff.mpr hbr
    have hl2mem : ∀ c ∈ l2, c ∈ (sanitizeUrl u).data := fun c hc => hSmem c (hNmem c hc)
    have hl2ctl : ∀ c ∈ l2, ¬(c.toNat = 9 ∨ c.toNat = 13 ∨ c.toNat = 10) :=
      fun c hc => sanitize_no_tab u c (hl2mem c hc)
    have hnlctl : ∀ c ∈ nl0.data, ¬(c.toNat = 9 ∨ c.toNat = 13 ∨ c.toNat = 10) :=
      fun c hc => sanitize_no_tab u c (hSmem c (hNmem2 c hc))
    rcases hF : splitFirst '#' l2 with _ | ⟨l2a, frd⟩
    · rw [hF] at h
      dsimp only at h
      have hHnotin := splitFirst_none_not_mem '#' l2 hF
      rcases hQ : splitFirst '?' l2 with _ | ⟨pad, qd⟩
      · rw [hQ] at h
        dsimp only at h
        have hQnotin := splitFirst_none_not_mem '?' l2 hQ
        simp only [Option.some.injEq, Prod.mk.injEq] at h
        obtain ⟨h1, h2, h3, h4, h5⟩ := h
        subst h1; subst h2; subst h4; subst h5
        have hpad : pa.data = l2 := by rw [← h3]
        rw [hpad]
        refine ⟨hSfacts, hNchars, hnlctl, hbr2, hQnotin, hHnotin, hl2ctl, by simp, ?_⟩
        intro hne
        rcases hNhead hne with hd | ⟨c0, t0, hd, hc0⟩
        · left; exact hd
        · exact head_slash_of l2 l2 c0 t0 hd hc0 ⟨[], by simp⟩ hQnotin hHnotin
      · rw [hQ] at h
        dsimp only at h
        obtain ⟨hl2eq, hQnotin⟩ := splitFirst_eq_some '?' l2 pad qd hQ
        simp only [Option.some.injEq, Prod.mk.injEq] at h
        obtain ⟨h1, h2, h3, h4, h5⟩ := h
        subst h1; subst h2; subst h5
        have hpad : pa.data = pad := by rw [← h3]
        rw [hpad]
        have hpadmem : ∀ c ∈ pad, c ∈ l2 := by
          intro c hc
          rw [hl2eq]
          exact List.mem_append_left _ hc
        refine ⟨hSfacts, hNchars, hnlctl, hbr2, hQnotin,
          fun hm => hHnotin (hpadmem _ hm),
          fun c hc => hl2ctl c (hpadmem c hc), by simp, ?_⟩
        intro hne
        rcases hNhead hne with hd | ⟨c0, t0, hd, hc0⟩
        · rw [hd] at hl2eq
          simp at hl2eq
        · exact head_slash_of pad l2 c0 t0 hd hc0 ⟨'?' :: qd, hl2eq⟩ hQnotin
            (fun hm => hHnotin (hpadmem _ hm))
    · rw [hF] at h
      dsimp only at h
      obtain ⟨hl2eq, hHnotin⟩ := splitFirst_eq_some '#' l2 l2a frd hF
      have hfrdmem : ∀ c ∈ frd, c ∈ l2 := by
        intro c hc
        rw [hl2eq]
        exact List.mem_append_right _ (List.mem_cons_of_mem _ hc)
      have hl2amem : ∀ c ∈ l2a, c ∈ l2 := by
        intro c hc
        rw [hl2eq]
        exact List.mem_append_left _ hc
      rcases hQ : splitFirst '?' l2a with _ | ⟨pad, qd⟩
      · rw [hQ] at h
        dsimp only at h
        have hQnotin := splitFirst_none_not_mem '?' l2a hQ
        simp only [Option.some.injEq, Prod.mk.injEq] at h
        obtain ⟨h1, h2, h3, h4, h5⟩ := h
        subst h1; subst h2; subst h4
        have hpad : pa.data = l2a := by rw [← h3]
        have hfr : fr.data = frd := by rw [← h5]
        rw [hpad, hfr]
        refine ⟨hSfacts, hNchars, hnlctl, hbr2, hQnotin, hHnotin,
          fun c hc => hl2ctl c (hl2amem c hc),
          fun c hc => hl2ctl c (hfrdmem c hc), ?_⟩
        intro hne
        rcases hNhead hne with hd | ⟨c0, t0, hd, hc0⟩
        · rw [hd] at hl2eq
          simp at hl2eq
        · exact head_slash_of l2a l2 c0 t0 hd hc0 ⟨'#' :: frd, hl2eq⟩ hQnotin hHnotin
      · rw [hQ] at h
        dsimp only at h
        obtain ⟨hl2aeq, hQnotin⟩ := splitFirst_eq_some '?' l2a pad qd hQ
        simp only [Option.some.injEq, Prod.mk.injEq] at h
        obtain ⟨h1, h2, h3, h4, h5⟩ := h
        subst h1; subst h2
        have hpad : pa.data = pad := by rw [← h3]
        have hfr : fr.data = frd := by rw [← h5]
        rw [hpad, hfr]
        have hpadmem_a : ∀ c ∈ pad, c ∈ l2a := by
          intro c hc
          rw [hl2aeq]
          exact List.mem_append_left _ hc
        have hpadmem : ∀ c ∈ pad, c ∈ l2 := fun c hc => hl2amem c (hpadmem_a c hc)
        refine ⟨hSfacts, hNchars, hnlctl, hbr2, hQnotin,
          fun hm => hHnotin (hpadmem_a _ hm),
          fun c hc => hl2ctl c (hpadmem c hc),
          fun c hc => hl2ctl c (hfrdmem c hc), ?_⟩
        intro hne
        rcases hNhead hne with hd | ⟨c0, t0, hd, hc0⟩
        · rw [hd] at hl2eq
          simp at hl2eq
        · have hpfx : ∃ rest, l2 = pad ++ rest := by
            refine ⟨'?' :: qd ++ '#' :: frd, ?_⟩
            rw [hl2eq, hl2aeq]
            simp
          exact head_slash_of pad l2 c0 t0 hd hc0 hpfx hQnotin
            (fun hm => hHnotin (hpadmem_a _ hm))


theorem pyUrlsplit_build_core (v sc nl : String) (tail0 : List Char)
    (pa2 q2 fr2 : String)
    (hscf : sc = "" ∨ (sc.data ≠ [] ∧ (∃ c0 t0, sc.data = c0 :: t0 ∧ isAsciiLetter c0 = true) ∧
      (∀ c ∈ sc.data, isSchemeChar c = true) ∧ asciiLower sc = sc))
    (hnlchars : ∀ c ∈ nl.data, (!(c == '/' || c == '?' || c == '#')) = true)
    (hnlctl : ∀ c ∈ nl.data, ¬(c.toNat = 9 ∨ c.toNat = 13 ∨ c.toNat = 10))
    (hbr : ((nl.data.contains '[' && !nl.data.contains ']') ||
      (nl.data.contains ']' && !nl.data.contains '[')) = false)
    (hvd : v.data = (if sc = "" then [] else sc.data ++ [':']) ++
      '/' :: '/' :: (nl.data ++ tail0))
    (htailhead : tail0 = [] ∨ ∃ c0 t0, tail0 = c0 :: t0 ∧
      (!(c0 == '/' || c0 == '?' || c0 == '#')) = false)
    (htailctl : ∀ c ∈ tail0, ¬(c.toNat = 9 ∨ c.toNat = 13 ∨ c.toNat = 10))
    (hstage : (let fragSplit := match splitFirst '#' tail0 with
        | some ab => (ab.1, String.mk ab.2)
        | none => (tail0, "")
      match splitFirst '?' fragSplit.1 with
      | some ab => some (sc, nl, String.mk ab.1, String.mk ab.2, fragSplit.2)
      | none => some (sc, nl, String.mk fragSplit.1, "", fragSplit.2))
      = some (sc, nl, pa2, q2, fr2)) :
    pyUrlsplit v = some (sc, nl, pa2, q2, fr2) := by
  have hsan : sanitizeUrl v = v := by
    apply sanitize_stable
    · right
      rw [hvd]
      rcases hscf with hsc | ⟨hne, ⟨c0, t0, hdat, hal⟩, _, _⟩
      · rw [if_pos hsc]
        exact ⟨'/', '/' :: (nl.data ++ tail0), by simp, by decide⟩
      · rw [if_neg ((string_ne_empty_iff sc).mpr hne), hdat]
        refine ⟨c0, t0 ++ ':' :: '/' :: '/' :: (nl.data ++ tail0), by simp, ?_⟩
        rw [isAsciiLetter_iff] at hal
        omega
    · intro c hc
      rw [hvd] at hc
      rcases List.mem_append.mp hc with hc | hc
      · rcases hscf with hsc | ⟨hne, _, hchars, _⟩
        · rw [if_pos hsc] at hc
          simp at hc
        · rw [if_neg ((string_ne_empty_iff sc).mpr hne)] at hc
          rcases List.mem_append.mp hc with hc | hc
          · exact schemeChar_no_ctl c (hchars c hc)
          · rcases List.mem_cons.mp hc with rfl | hc
            · decide
            · simp at hc
      · rcases List.mem_cons.mp hc with rfl | hc
        · decide
        · rcases List.mem_cons.mp hc with rfl | hc
          · decide
          · rcases List.mem_append.mp hc with hc | hc
            · exact hnlctl c hc
            · exact htailctl c hc
  unfold pyUrlsplit
  rw [hsan, hvd]
  dsimp only
  have hscheme : schemeOf ((if sc = "" then [] else sc.data ++ [':']) ++
      '/' :: '/' :: (nl.data ++ tail0)) = (sc, '/' :: '/' :: (nl.data ++ tail0)) := by
    rcases hscf with hsc | ⟨hne, halpha, hchars, hlower⟩
    · rw [if_pos hsc, List.nil_append]
      rw [hsc]
      apply schemeOf_not_alpha
      right
      exact ⟨'/', _, rfl, by decide⟩
    · rw [if_neg ((string_ne_empty_iff sc).mpr hne)]
      have hassoc : (sc.data ++ [':']) ++ '/' :: '/' :: (nl.data ++ tail0)
          = sc.data ++ ':' :: ('/' :: '/' :: (nl.data ++ tail0)) := by
        simp
      rw [hassoc]
      exact schemeOf_build sc _ hne halpha hchars hlower
  rw [hscheme]
  dsimp only
  have hnet : netlocOf ('/' :: '/' :: (nl.data ++ tail0)) = (nl, tail0) :=
    netlocOf_build nl tail0 hnlchars htailhead
  rw [hnet]
  dsimp only
  rw [if_neg (by rw [hbr]; simp)]
  exact hstage


theorem pyUrlsplit_rebuild (u sc nl pa q fr : String)
    (hp : pyUrlsplit u = some (sc, nl, pa, q, fr)) (hnl : nl ≠ "")
    (pa' q' : String)
    (hpa'1 : '?' ∉ pa'.data) (hpa'2 : '#' ∉ pa'.data)
    (hpa'3 : ∀ c ∈ pa'.data, ¬(c.toNat = 9 ∨ c.toNat = 13 ∨ c.toNat = 10))
    (hpa'4 : pa'.data = [] ∨ ∃ t, pa'.data = '/' :: t)
    (hq'1 : '#' ∉ q'.data)
    (hq'2 : ∀ c ∈ q'.data, ¬(c.toNat = 9 ∨ c.toNat = 13 ∨ c.toNat = 10)) :
    pyUrlsplit (pyUrlunsplit sc nl pa' q' fr) = some (sc, nl, pa', q', fr) := by
  obtain ⟨hscf, hnlchars, hnlctl, hbr, _, _, _, hfrctl, _⟩ := pyUrlsplit_inv u sc nl pa q fr hp
  have h2s : ("//" : String).data = ['/', '/'] := rfl
  have hcol : (":" : String).data = [':'] := rfl
  have hque : ("?" : String).data = ['?'] := rfl
  have hhash : ("#" : String).data = ['#'] := rfl
  have hdata : (pyUrlunsplit sc nl pa' q' fr).data
      = (if sc = "" then [] else sc.data ++ [':']) ++ '/' :: '/' :: (nl.data ++
          ((pa'.data ++ (if q' = "" then [] else '?' :: q'.data)) ++
           (if fr = "" then [] else '#' :: fr.data))) := by
    unfold pyUrlunsplit
    rw [if_pos (Or.inl hnl)]
    have hinner : ¬ (pa' ≠ "" ∧ ¬ (strStarts pa' "/" = true)) := by
      rintro ⟨hne, hns⟩
      rcases hpa'4 with hd | ⟨t, hd⟩
      · exact (string_ne_empty_iff pa').mp hne hd
      · apply hns
        unfold strStarts
        rw [hd]
        simp [List.isPrefixOf]
    rw [if_neg hinner]
    dsimp only
    by_cases hsc : sc = ""
    · rw [if_neg (not_not_intro hsc), if_pos hsc]
      by_cases hq : q' = ""
      · rw [if_neg (not_not_intro hq), if_pos hq]
        by_cases hfr : fr = ""
        · rw [if_neg (not_not_intro hfr), if_pos hfr]
          simp [String.data_append, h2s]
        · rw [if_pos hfr, if_neg hfr]
          simp [String.data_append, h2s, hhash]
      · rw [if_pos hq, if_neg hq]
        by_cases hfr : fr = ""
        · rw [if_neg (not_not_intro hfr), if_pos hfr]
          simp [String.data_append, h2s, hque]
        · rw [if_pos hfr, if_neg hfr]
          simp [String.data_append, h2s, hque, hhash]
    · rw [if_pos hsc, if_neg hsc]
      by_cases hq : q' = ""
      · rw [if_neg (not_not_intro hq), if_pos hq]
        by_cases hfr : fr = ""
        · rw [if_neg (not_not_intro hfr), if_pos hfr]
          simp [String.data_append, h2s, hcol]
        · rw [if_pos hfr, if_neg hfr]
          simp [String.data_append, h2s, hcol, hhash]
      · rw [if_pos hq, if_neg hq]
        by_cases hfr : fr = ""
        · rw [if_neg (not_not_intro hfr), if_pos hfr]
          simp [String.data_append, h2s, hcol, hque]
        · rw [if_pos hfr, if_neg hfr]
          simp [String.data_append, h2s, hcol, hque, hhash]
  apply pyUrlsplit_build_core (pyUrlunsplit sc nl pa' q' fr) sc nl
    ((pa'.data ++ (if q' = "" then [] else '?' :: q'.data)) ++
     (if fr = "" then [] else '#' :: fr.data))
    pa' q' fr hscf hnlchars hnlctl hbr hdata
  · -- head of tail0
    rcases hpa'4 with hd | ⟨t, hd⟩
    · rw [hd, List.nil_append]
      by_cases hq : q' = ""
      · rw [if_pos hq, List.nil_append]
        by_cases hfr : fr = ""
        · rw [if_pos hfr]
          left; rfl
        · rw [if_neg hfr]
          right
          exact ⟨'#', fr.data, rfl, by decide⟩
      · rw [if_neg hq, List.cons_append]
        right
        exact ⟨'?', _, rfl, by decide⟩
    · rw [hd, List.cons_append, List.cons_append]
      right
      exact ⟨'/', _, rfl, by decide⟩
  · -- ctl chars of tail0
    intro c hc
    rcases List.mem_append.mp hc with hc | hc
    · rcases List.mem_append.mp hc with hc | hc
      · exact hpa'3 c hc
      · by_cases hq : q' = ""
        · rw [if_pos hq] at hc
          simp at hc
        · rw [if_neg hq] at hc
          rcases List.mem_cons.mp hc with rfl | hc
          · decide
          · exact hq'2 c hc
    · by_cases hfr : fr = ""
      · rw [if_pos hfr] at hc
        simp at hc
      · rw [if_neg hfr] at hc
        rcases List.mem_cons.mp hc with rfl | hc
        · decide
        · exact hfrctl c hc
  · -- the frag/query stage
    have hq'notin_l2a : '#' ∉ pa'.data ++ (if q' = "" then [] else '?' :: q'.data) := by
      intro hm
      rcases List.mem_append.mp hm with hm | hm
      · exact hpa'2 hm
      · by_cases hq : q' = ""
        · rw [if_pos hq] at hm
          simp at hm
        · rw [if_neg hq] at hm
          rcases List.mem_cons.mp hm with he | hm
          · exact absurd he (by decide)
          · exact hq'1 hm
    by_cases hfr : fr = ""
    · rw [if_pos hfr, List.append_nil]
      rw [splitFirst_eq_none '#' _ hq'notin_l2a]
      dsimp only
      by_cases hq : q' = ""
      · rw [if_pos hq, List.append_nil]
        rw [splitFirst_eq_none '?' _ hpa'1]
        dsimp only
        rw [hfr, hq]
      · rw [if_neg hq]
        rw [splitFirst_append '?' _ _ hpa'1]
        rw [hfr]
    · rw [if_neg hfr]
      rw [splitFirst_append '#' _ _ hq'notin_l2a]
      dsimp only
      by_cases hq : q' = ""
      · rw [if_pos hq, List.append_nil]
        rw [splitFirst_eq_none '?' _ hpa'1]
        dsimp only
        rw [hq]
      · rw [if_neg hq]
        rw [splitFirst_append '?' _ _ hpa'1]


theorem pyUrlencode_no_hash (l : List (String × String)) : '#' ∉ (pyUrlencode l).data := by
  intro hm
  rcases pyUrlencode_chars l '#' hm with h | h | h | h | h
  · exact absurd h (by decide)
  all_goals exact absurd h (by decide)

theorem pyUrlencode_no_ctl (l : List (String × String)) :
    ∀ c ∈ (pyUrlencode l).data, ¬(c.toNat = 9 ∨ c.toNat = 13 ∨ c.toNat = 10) := by
  intro c hc
  rcases pyUrlencode_chars l c hc with h | h | h | h | h
  · rw [quoteSafeChar_iff] at h
    omega
  all_goals subst h; decide

theorem pyUrlparse_rebuild (u : String) (p : UrlParts)
    (hp : pyUrlparse u = some p) (hnl : p.netloc ≠ "") (q2 : String)
    (hq1 : '#' ∉ q2.data)
    (hq2c : ∀ c ∈ q2.data, ¬(c.toNat = 9 ∨ c.toNat = 13 ∨ c.toNat = 10)) :
    pyUrlparse (pyUrlunparse { p with query := q2 }) = some { p with query := q2 } := by
  unfold pyUrlparse at hp
  rcases hsplit : pyUrlsplit u with _ | ⟨sc, nl, pa, q, fr⟩
  · rw [hsplit] at hp
    simp at hp
  · rw [hsplit] at hp
    dsimp only at hp
    obtain ⟨-, -, -, -, hpaQ, hpaH, hpaCtl, -, hpaHead⟩ := pyUrlsplit_inv u sc nl pa q fr hsplit
    by_cases hgate : (uses_params.contains sc && pa.data.contains ';') = true
    · rw [if_pos hgate] at hp
      rcases hXY : pySplitParams pa.data with ⟨X, Y⟩
      rw [hXY] at hp
      dsimp only at hp
      injection hp with hp
      subst hp
      dsimp only at hnl
      show pyUrlparse (pyUrlunsplit sc nl (if Y ≠ "" then X ++ ";" ++ Y else X) q2 fr)
        = some ⟨sc, nl, X, Y, q2, fr⟩
      by_cases hY : Y = ""
      · rw [if_neg (not_not_intro hY)]
        obtain ⟨rest, hpref⟩ := pySplitParams_prefix pa.data X Y hXY
        have hXq : '?' ∉ X.data := fun hm => hpaQ (by rw [hpref]; exact List.mem_append_left _ hm)
        have hXh : '#' ∉ X.data := fun hm => hpaH (by rw [hpref]; exact List.mem_append_left _ hm)
        have hXctl : ∀ c ∈ X.data, ¬(c.toNat = 9 ∨ c.toNat = 13 ∨ c.toNat = 10) :=
          fun c hc => hpaCtl c (by rw [hpref]; exact List.mem_append_left _ hc)
        have hXhead : X.data = [] ∨ ∃ t, X.data = '/' :: t := by
          rcases hpaHead hnl with hd | ⟨t, hd⟩
          · left
            rw [hd] at hpref
            exact (List.append_eq_nil.mp hpref.symm).1
          · rcases hX : X.data with _ | ⟨x0, xt⟩
            · left; rfl
            · right
              rw [hX, List.cons_append] at hpref
              rw [hd] at hpref
              injection hpref with h1 h2
              exact ⟨xt, by rw [h1]⟩
        have hreb := pyUrlsplit_rebuild u sc nl pa q fr hsplit hnl X q2 hXq hXh hXctl hXhead
          hq1 hq2c
        unfold pyUrlparse
        rw [hreb]
        dsimp only
        by_cases hgate2 : (uses_params.contains sc && X.data.contains ';') = true
        · rw [if_pos hgate2]
          rw [pySplitParams_self pa.data X Y hXY hY]
          dsimp only
          rw [hY]
        · rw [if_neg hgate2]
          rw [hY]
      · rw [if_pos hY]
        have hrej : (X ++ ";" ++ Y).data = pa.data := by
          have h1 := pySplitParams_rejoin pa.data X Y hXY hY
          rw [String.data_append, String.data_append,
            show (";" : String).data = [';'] from rfl, List.append_assoc]
          exact h1
        have hXq : '?' ∉ (X ++ ";" ++ Y).data := by rw [hrej]; exact hpaQ
        have hXh : '#' ∉ (X ++ ";" ++ Y).data := by rw [hrej]; exact hpaH
        have hXctl : ∀ c ∈ (X ++ ";" ++ Y).data,
            ¬(c.toNat = 9 ∨ c.toNat = 13 ∨ c.toNat = 10) := by
          rw [hrej]; exact hpaCtl
        have hXhead : (X ++ ";" ++ Y).data = [] ∨ ∃ t, (X ++ ";" ++ Y).data = '/' :: t := by
          rw [hrej]; exact hpaHead hnl
        have hreb := pyUrlsplit_rebuild u sc nl pa q fr hsplit hnl (X ++ ";" ++ Y) q2
          hXq hXh hXctl hXhead hq1 hq2c
        unfold pyUrlparse
        rw [hreb]
        dsimp only
        have hgate2 : (uses_params.contains sc && (X ++ ";" ++ Y).data.contains ';') = true := by
          rw [hrej]; exact hgate
        rw [if_pos hgate2]
        have hsp2 : pySplitParams (X ++ ";" ++ Y).data = (X, Y) := by rw [hrej, hXY]
        rw [hsp2]
    · rw [if_neg hgate] at hp
      injection hp with hp
      subst hp
      dsimp only at hnl
      show pyUrlparse (pyUrlunsplit sc nl
        (if ("" : String) ≠ "" then pa ++ ";" ++ "" else pa) q2 fr)
        = some ⟨sc, nl, pa, "", q2, fr⟩
      rw [if_neg (by simp)]
      have hreb := pyUrlsplit_rebuild u sc nl pa q fr hsplit hnl pa q2 hpaQ hpaH hpaCtl
        (hpaHead hnl) hq1 hq2c
      unfold pyUrlparse
      rw [hreb]
      dsimp only
      rw [if_neg hgate]

/-! ## Shared witness inputs: concrete stores, feeds and oracles -/

/-- Page-image lookups that find nothing. -/
def ogEmpty : String → String := fun _ => ""

/-- A delivery oracle where every publish succeeds. -/
def pubTrue : Item → Bool := fun _ => true

/-- One well-formed feed entry. -/
def entryW : RawEntry :=
  ⟨"Bitcoin rises strongly today", "The market is moving upward fast.", "",
   "https://a.example/p1", [], [], []⟩

/-- A parse oracle: the first configured feed has one entry, the rest are
healthy but empty. -/
def parseW : String → Nat → ParsedFeed := fun url _ =>
  if url = "https://bits.media/rss/" then ⟨false, "Feed One", [entryW]⟩ else ⟨false, "", []⟩

/-- One scheduler cycle over those oracles. -/
def cycleW : CycleIn := ⟨0, parseW, ogEmpty, pubTrue⟩

/-- A store that already holds one posted uid. -/
def dbPosted : DB := ⟨[⟨"u1", 0, "t", "l"⟩], [], []⟩

/-- A store whose daily counter is at the ceiling. -/
def dbFull : DB := ⟨[], [("2025-01-01", 10)], []⟩

/-- A parse oracle that fails every attempt. -/
def parseBozo : Nat → ParsedFeed := fun _ => ⟨true, "", []⟩

/-- A parse oracle that fails the first attempt and succeeds on the
second. -/
def parseRecover : Nat → ParsedFeed := fun j =>
  if j = 0 then ⟨true, "", []⟩ else ⟨false, "RT", []⟩

/-- A downstream channel that rejects every attempt as malformed. -/
def attBad : Photo → String → Nat → TGOutcome := fun _ _ _ => TGOutcome.badRequest

/-- A downstream channel that rate-limits the first attempt with a
five-second wait and accepts the second. -/
def attRL : Photo → String → Nat → TGOutcome := fun _ _ i =>
  if i = 0 then TGOutcome.retryAfter 5 else TGOutcome.success

/-- A fresh candidate item. -/
def itemW : Item := ⟨"uidW", "Title words here", "Sum", "linkW", "src", ""⟩

/-! ## The claims -/

/-- C1: across any sequence of cycles within one calendar day, the number
of successful deliveries recorded that day never exceeds
MAX_POSTS_PER_DAY, the daily counter grows by exactly the deliveries
made, and the counter is monotonically non-decreasing across the day's
cycles. -/
theorem C1_daily_quota_invariant (db : DB) (today : String) (cycles : List CycleIn) :
    ((runCycles db today cycles).2.map Prod.fst).sum ≤ MAX_POSTS_PER_DAY ∧
    get_today_posts_count (runCycles db today cycles).1 today
      = get_today_posts_count db today + ((runCycles db today cycles).2.map Prod.fst).sum ∧
    (∀ pre suf, cycles = pre ++ suf →
      get_today_posts_count (runCycles db today pre).1 today
        ≤ get_today_posts_count (runCycles db today cycles).1 today) := by
  obtain ⟨r1, r2, r3, r4, r5⟩ := runCycles_spec today cycles db
  refine ⟨?_, r1, ?_⟩
  · by_cases h : get_today_posts_count db today ≤ MAX_POSTS_PER_DAY
    · have := r2 h
      omega
    · have := r3 (by omega)
      omega
  · intro pre suf hps
    subst hps
    rw [runCycles_append]
    dsimp only
    obtain ⟨s1, s2, s3, s4, s5⟩ := runCycles_spec today suf (runCycles db today pre).1
    omega

theorem C1_daily_quota_invariant_witness :
    ((runCycles initDB "2025-01-01" [cycleW]).2.map Prod.fst).sum ≤ MAX_POSTS_PER_DAY ∧
    get_today_posts_count (runCycles initDB "2025-01-01" []).1 "2025-01-01"
      ≤ get_today_posts_count (runCycles initDB "2025-01-01" [cycleW]).1 "2025-01-01" := by
  have h := C1_daily_quota_invariant initDB "2025-01-01" [cycleW]
  exact ⟨h.1, h.2.2 [] [cycleW] rfl⟩

/-- C2: a uid already recorded in the posted ledger is never the subject
of another delivery attempt in any subsequent cycle. -/
theorem C2_no_redelivery (db : DB) (today : String) (cycles : List CycleIn) (uid : String)
    (h : is_posted db uid = true) :
    ∀ p ∈ (runCycles db today cycles).2, uid ∉ p.2 :=
  fun p hp => (runCycles_spec today cycles db).2.2.2.2 uid h p hp

theorem C2_no_redelivery_witness :
    is_posted dbPosted "u1" = true ∧
    ∀ p ∈ (runCycles dbPosted "2025-01-01" [cycleW]).2, "u1" ∉ p.2 :=
  ⟨by decide, C2_no_redelivery dbPosted "2025-01-01" [cycleW] "u1" (by decide)⟩

/-- C3: within one cycle, deliveries never exceed
min(MAX_POSTS_PER_CHECK, MAX_POSTS_PER_DAY - todayCount-at-start), and a
cycle that starts at or above the daily ceiling delivers nothing and
reports LIMIT_REACHED. -/
theorem C3_per_cycle_bound (db : DB) (today : String) (now : Nat)
    (parse : String → Nat → ParsedFeed) (og : String → String) (pub : Item → Bool) :
    (post_cycle db today now parse og pub).posted_count
      ≤ min MAX_POSTS_PER_CHECK (MAX_POSTS_PER_DAY - get_today_posts_count db today) ∧
    (MAX_POSTS_PER_DAY ≤ get_today_posts_count db today →
      (post_cycle db today now parse og pub).posted_count = 0 ∧
      (post_cycle db today now parse og pub).status = CycleStatus.LIMIT_REACHED) := by
  obtain ⟨pc1, pc2, pc3, pc4, pc5, pc6⟩ := post_cycle_spec db today now parse og pub
  refine ⟨Nat.le_min.mpr ⟨pc3, pc4⟩, ?_⟩
  intro h
  rw [pc1 h]
  exact ⟨rfl, rfl⟩

theorem C3_per_cycle_bound_witness :
    MAX_POSTS_PER_DAY ≤ get_today_posts_count dbFull "2025-01-01" ∧
    (post_cycle dbFull "2025-01-01" 0 parseW ogEmpty pubTrue).posted_count = 0 ∧
    (post_cycle dbFull "2025-01-01" 0 parseW ogEmpty pubTrue).status
      = CycleStatus.LIMIT_REACHED := by
  have h := C3_per_cycle_bound dbFull "2025-01-01" 0 parseW ogEmpty pubTrue
  exact ⟨by decide, (h.2 (by decide)).1, (h.2 (by decide)).2⟩

/-- C4: marking a source failed at time t with backoff b makes it
unavailable strictly before t+b and available from t+b on (a source with
no suspension row is available); a source whose fetch exhausts every
retry is marked failed with that window and a fetch before the window
elapses makes no parse attempt, while a fetch at or after the elapse
attempts again; a fetch that succeeds at some attempt leaves the store
unmarked, so only the final exhausted attempt trips the breaker. -/
theorem C4_circuit_breaker :
    (∀ (db : DB) (url : String) (t b q : Nat),
      is_source_available (mark_source_failed db url b t) url q = decide (t + b ≤ q)) ∧
    (∀ (db : DB) (url : String) (q : Nat),
      suspLookup db.failed_sources url = none → is_source_available db url q = true) ∧
    (∀ (db : DB) (now : Nat) (url : String) (lt : Nat) (parse : Nat → ParsedFeed)
        (og : String → String),
      is_source_available db url now = true →
      (∀ j, j < RSS_RETRY_ATTEMPTS → (parse j).bozo = true) →
      fetch_single_feed db now url lt parse og =
        (mark_source_failed db url RSS_BACKOFF_TIME now, [], RSS_RETRY_ATTEMPTS)) ∧
    (∀ (db : DB) (url : String) (t q lt : Nat) (parse : Nat → ParsedFeed)
        (og : String → String),
      q < t + RSS_BACKOFF_TIME →
      fetch_single_feed (mark_source_failed db url RSS_BACKOFF_TIME t) q url lt parse og =
        (mark_source_failed db url RSS_BACKOFF_TIME t, [], 0)) ∧
    (∀ (db : DB) (url : String) (t q lt : Nat) (parse : Nat → ParsedFeed)
        (og : String → String),
      t + RSS_BACKOFF_TIME ≤ q →
      1 ≤ (fetch_single_feed (mark_source_failed db url RSS_BACKOFF_TIME t) q url lt
        parse og).2.2) ∧
    (∀ (db : DB) (now : Nat) (url : String) (lt : Nat) (parse : Nat → ParsedFeed)
        (og : String → String) (j : Nat),
      is_source_available db url now = true → j < RSS_RETRY_ATTEMPTS →
      (∀ k, k < j → (parse k).bozo = true) → (parse j).bozo = false →
      (fetch_single_feed db now url lt parse og).1 = db ∧
      (fetch_single_feed db now url lt parse og).2.2 = j + 1) := by
  refine ⟨fun db url t b q => available_after_mark db url b t q, ?_, ?_, ?_, ?_, ?_⟩
  · intro db url q h
    unfold is_source_available
    rw [h]
  · intro db now url lt parse og hav hall
    unfold fetch_single_feed
    rw [if_neg (by simp [hav])]
    rw [fetchGo_all_bozo now url lt parse og RSS_RETRY_ATTEMPTS 0 (by omega) (by decide)
      (fun j _ hj2 => hall j hj2) db]
    simp
  · intro db url t q lt parse og hq
    unfold fetch_single_feed
    rw [if_pos]
    rw [available_after_mark]
    simp
    omega
  · intro db url t q lt parse og hq
    unfold fetch_single_feed
    have hav : is_source_available (mark_source_failed db url RSS_BACKOFF_TIME t) url q
        = true := by
      rw [available_after_mark]
      exact decide_eq_true hq
    rw [if_neg (by simp [hav])]
    exact fetchGo_attempts_pos _ _ _ _ _ _ _ _ (by decide)
  · intro db now url lt parse og j hav hj hmid hbj
    unfold fetch_single_feed
    rw [if_neg (by simp [hav])]
    rw [fetchGo_success now url lt parse og RSS_RETRY_ATTEMPTS 0 j hj (Nat.zero_le _)
      (fun k _ hk => hmid k hk) hbj (by omega) db]
    exact ⟨rfl, by simp⟩

theorem C4_circuit_breaker_witness :
    is_source_available (mark_source_failed initDB "u" 300 100) "u" 399
      = decide (100 + 300 ≤ 399) ∧
    is_source_available initDB "u" 7 = true ∧
    fetch_single_feed initDB 100 "u" 5 parseBozo ogEmpty =
      (mark_source_failed initDB "u" RSS_BACKOFF_TIME 100, [], RSS_RETRY_ATTEMPTS) ∧
    fetch_single_feed (mark_source_failed initDB "u" RSS_BACKOFF_TIME 100) 200 "u" 5
      parseBozo ogEmpty = (mark_source_failed initDB "u" RSS_BACKOFF_TIME 100, [], 0) ∧
    1 ≤ (fetch_single_feed (mark_source_failed initDB "u" RSS_BACKOFF_TIME 100) 400 "u" 5
      parseBozo ogEmpty).2.2 ∧
    (fetch_single_feed initDB 100 "u" 5 parseRecover ogEmpty).1 = initDB ∧
    (fetch_single_feed initDB 100 "u" 5 parseRecover ogEmpty).2.2 = 2 := by
  have h := C4_circuit_breaker
  refine ⟨h.1 initDB "u" 100 300 399, h.2.1 initDB "u" 7 rfl,
    h.2.2.1 initDB 100 "u" 5 parseBozo ogEmpty (by decide) (fun j _ => rfl),
    h.2.2.2.1 initDB "u" 100 200 5 parseBozo ogEmpty (by decide),
    h.2.2.2.2.1 initDB "u" 100 400 5 parseBozo ogEmpty (by decide),
    (h.2.2.2.2.2 initDB 100 "u" 5 parseRecover ogEmpty 1 (by decide) (by decide)
      (fun k hk => by
        have hk0 : k = 0 := by omega
        subst hk0
        rfl) (by decide)).1,
    (h.2.2.2.2.2 initDB 100 "u" 5 parseRecover ogEmpty 1 (by decide) (by decide)
      (fun k hk => by
        have hk0 : k = 0 := by omega
        subst hk0
        rfl) (by decide)).2⟩

/-- C5: an attempt classified as a malformed request makes the delivery
engine return failure immediately after that single attempt, with no
further attempts whatever the configured ceiling. -/
theorem C5_malformed_fatal (hfOut : Option String) (eIdx : Nat)
    (att : Photo → String → Nat → TGOutcome) (t s img : String)
    (h0 : ∀ p c, att p c 0 = TGOutcome.badRequest) :
    publish_post_with_retry hfOut eIdx att t s img = (false, 1, []) ∧
    ∀ (a : Nat → TGOutcome) (n fuel i : Nat), 1 ≤ fuel → a i = TGOutcome.badRequest →
      pubGo a n fuel i = (false, 1, []) := by
  refine ⟨?_, fun a n fuel i hf hb => pubGo_badRequest a n fuel i hf hb⟩
  rw [publish_runs_loop]
  exact pubGo_badRequest _ _ _ _ (by decide) (h0 _ _)

theorem C5_malformed_fatal_witness :
    publish_post_with_retry none 0 attBad "Malformed title" "Some summary" ""
      = (false, 1, []) ∧
    pubGo (fun _ => TGOutcome.badRequest) 7 7 0 = (false, 1, []) := by
  have h := C5_malformed_fatal none 0 attBad "Malformed title" "Some summary" ""
    (fun _ _ => rfl)
  exact ⟨h.1, h.2 (fun _ => TGOutcome.badRequest) 7 7 0 (by decide) rfl⟩

/-- C6: when the first attempt is rate-limited with wait w and the second
succeeds, the engine sleeps w plus the five-second safety margin before
the retry, the overall result is success in two attempts, and the
orchestrator then writes exactly one ledger row and one counter increment
for the item. -/
theorem C6_ratelimit_then_success (hfOut : Option String) (eIdx w : Nat)
    (att : Photo → String → Nat → TGOutcome)
    (h0 : ∀ p c, att p c 0 = TGOutcome.retryAfter w)
    (h1 : ∀ p c, att p c 1 = TGOutcome.success) :
    (∀ t s img, publish_post_with_retry hfOut eIdx att t s img = (true, 2, [w + 5])) ∧
    (∀ (db : DB) (today : String) (now : Nat) (it : Item) (limit : Nat),
      is_posted db it.uid = false → 1 ≤ limit →
      (cycleLoop
          (fun j => (publish_post_with_retry hfOut eIdx att j.title j.summary j.image_url).1)
          today now limit db [it] 0).1.posted
        = db.posted ++ [⟨it.uid, now, pyTake it.title 300, pyTake it.link 500⟩] ∧
      (cycleLoop
          (fun j => (publish_post_with_retry hfOut eIdx att j.title j.summary j.image_url).1)
          today now limit db [it] 0).2.1 = 1 ∧
      get_today_posts_count
          (cycleLoop
            (fun j => (publish_post_with_retry hfOut eIdx att j.title j.summary j.image_url).1)
            today now limit db [it] 0).1 today
        = get_today_posts_count db today + 1) := by
  have hpub : ∀ t s img, publish_post_with_retry hfOut eIdx att t s img = (true, 2, [w + 5]) := by
    intro t s img
    rw [publish_runs_loop]
    exact pubGo_retry_success _ _ _ _ _ (by decide) (h0 _ _) (h1 _ _)
  refine ⟨hpub, ?_⟩
  intro db today now it limit hip hlim
  have hloop : cycleLoop
      (fun j => (publish_post_with_retry hfOut eIdx att j.title j.summary j.image_url).1)
      today now limit db [it] 0
      = (increment_today_posts (mark_posted db it.uid now it.title it.link) today, 1,
         [it.uid]) := by
    simp only [cycleLoop]
    rw [if_neg (show ¬ limit ≤ 0 by omega)]
    rw [if_neg (by simp [hip])]
    rw [if_pos (by rw [hpub it.title it.summary it.image_url])]
  rw [hloop]
  refine ⟨?_, rfl, ?_⟩
  · rw [increment_posted]
    unfold mark_posted
    rw [if_neg (by simp [hip])]
  · rw [count_increment, count_eq_of_daily_eq _ _ today (mark_posted_daily ..)]

theorem C6_ratelimit_then_success_witness :
    publish_post_with_retry none 1 attRL "Witness title" "Witness summary" ""
      = (true, 2, [5 + 5]) ∧
    is_posted initDB itemW.uid = false ∧
    (cycleLoop (fun j => (publish_post_with_retry none 1 attRL j.title j.summary j.image_url).1)
        "2025-01-01" 0 2 initDB [itemW] 0).1.posted
      = initDB.posted ++ [⟨itemW.uid, 0, pyTake itemW.title 300, pyTake itemW.link 500⟩] ∧
    (cycleLoop (fun j => (publish_post_with_retry none 1 attRL j.title j.summary j.image_url).1)
        "2025-01-01" 0 2 initDB [itemW] 0).2.1 = 1 ∧
    get_today_posts_count
        (cycleLoop (fun j => (publish_post_with_retry none 1 attRL j.title j.summary j.image_url).1)
          "2025-01-01" 0 2 initDB [itemW] 0).1 "2025-01-01"
      = get_today_posts_count initDB "2025-01-01" + 1 := by
  have h := C6_ratelimit_then_success none 1 5 attRL (fun _ _ => rfl) (fun _ _ => rfl)
  have h2 := h.2 initDB "2025-01-01" 0 itemW 2 (by decide) (by decide)
  exact ⟨h.1 "Witness title" "Witness summary" "", by decide, h2.1, h2.2.1, h2.2.2⟩

/-- C7 as stated is false: clean_url is not idempotent on every URL.
urlunsplit re-adds the double slash only for netloc-bearing schemes
(uses_netloc), so an authority-less URL whose path starts with slashes
loses a slash pair on every pass: cleaning mailto://///x once yields
mailto:///x, cleaning that yields mailto:/x. -/
theorem C7_not_idempotent_counterexample :
    clean_url_str "mailto://///x" = "mailto:///x" ∧
    clean_url_str (clean_url_str "mailto://///x") = "mailto:/x" ∧
    clean_url_str (clean_url_str "mailto://///x") ≠ clean_url_str "mailto://///x" := by
  exact ⟨by decide, by decide, by decide⟩

/-- C7 amended: on every URL that urlparse reads with a nonempty network
location (every http/https feed link), clean_url is idempotent, the
cleaned URL parses back to the same scheme, netloc, path, params and
fragment with the query re-encoded by urlencode, and the re-encoded
query decodes (parse_qsl) to exactly the original key-value pairs whose
key does not start case-insensitively with utm_, preserving membership
and multiplicity of every non-tracking pair. -/
theorem C7_clean_url_normalization (url : String) (p : UrlParts)
    (hp : pyUrlparse url = some p) (hnl : p.netloc ≠ "") :
    clean_url_str (clean_url_str url) = clean_url_str url ∧
    pyUrlparse (clean_url_str url)
      = some { p with query := pyUrlencode ((pyParseQsl p.query).filter fun kv => !(isUtmKey kv.1)) } ∧
    pyParseQsl (pyUrlencode ((pyParseQsl p.query).filter fun kv => !(isUtmKey kv.1)))
      = (pyParseQsl p.query).filter (fun kv => !(isUtmKey kv.1)) ∧
    (∀ kv : String × String,
      kv ∈ (pyParseQsl p.query).filter (fun kv => !(isUtmKey kv.1)) ↔
        kv ∈ pyParseQsl p.query ∧ isUtmKey kv.1 = false) ∧
    (∀ kv : String × String, isUtmKey kv.1 = false →
      ((pyParseQsl p.query).filter (fun kv => !(isUtmKey kv.1))).count kv
        = (pyParseQsl p.query).count kv) := by
  have hne : url ≠ "" := by
    rintro rfl
    rw [show pyUrlparse "" = some ⟨"", "", "", "", "", ""⟩ from rfl] at hp
    injection hp with hp
    rw [← hp] at hnl
    exact hnl rfl
  have hofu : ∀ r : UrlParts, ofUrlQ (clean_url (toUrlQ r))
      = { r with query := pyUrlencode ((pyParseQsl r.query).filter fun kv => !(isUtmKey kv.1)) } := by
    intro r
    rcases r with ⟨a, b, c, d, e, f⟩
    rfl
  have hfv : ∀ (w : String) (pw : UrlParts), pyUrlparse w = some pw → w ≠ "" →
      clean_url_str w = pyUrlunparse (ofUrlQ (clean_url (toUrlQ pw))) := by
    intro w pw hw hwne
    unfold clean_url_str
    rw [if_neg hwne, hw]
  have hfu : clean_url_str url
      = pyUrlunparse { p with query := pyUrlencode ((pyParseQsl p.query).filter fun kv => !(isUtmKey kv.1)) } := by
    rw [hfv url p hp hne, hofu p]
  have hq1 := pyUrlencode_no_hash ((pyParseQsl p.query).filter fun kv => !(isUtmKey kv.1))
  have hq2c := pyUrlencode_no_ctl ((pyParseQsl p.query).filter fun kv => !(isUtmKey kv.1))
  have hparse2 : pyUrlparse (clean_url_str url)
      = some { p with query := pyUrlencode ((pyParseQsl p.query).filter fun kv => !(isUtmKey kv.1)) } := by
    rw [hfu]
    exact pyUrlparse_rebuild url p hp hnl _ hq1 hq2c
  refine ⟨?_, hparse2, pyParseQsl_pyUrlencode _, ?_, ?_⟩
  · have hvne : clean_url_str url ≠ "" := by
      intro hv
      rw [hv, show pyUrlparse "" = some ⟨"", "", "", "", "", ""⟩ from rfl] at hparse2
      injection hparse2 with hparse2
      have hnl2 := congrArg UrlParts.netloc hparse2
      dsimp only at hnl2
      exact hnl hnl2.symm
    rw [hfv (clean_url_str url) _ hparse2 hvne, hofu]
    have hq2q : pyUrlencode ((pyParseQsl (pyUrlencode ((pyParseQsl p.query).filter
          fun kv => !(isUtmKey kv.1)))).filter fun kv => !(isUtmKey kv.1))
        = pyUrlencode ((pyParseQsl p.query).filter fun kv => !(isUtmKey kv.1)) := by
      rw [pyParseQsl_pyUrlencode, filter_idem]
    dsimp only
    rw [hq2q, hfu]
  · intro kv
    rw [List.mem_filter]
    constructor
    · rintro ⟨h1, h2⟩
      exact ⟨h1, by simpa using h2⟩
    · rintro ⟨h1, h2⟩
      exact ⟨h1, by simp [h2]⟩
  · intro kv hkv
    exact count_filter_of (fun kv2 => !(isUtmKey kv2.1)) kv
      (show (!(isUtmKey kv.1)) = true by rw [hkv]; rfl) _

theorem C7_clean_url_normalization_witness :
    clean_url_str "https://ex.com/a/p;pr?utm_source=x&a=1#frag"
      = "https://ex.com/a/p;pr?a=1#frag" ∧
    clean_url_str (clean_url_str "https://ex.com/a/p;pr?utm_source=x&a=1#frag")
      = clean_url_str "https://ex.com/a/p;pr?utm_source=x&a=1#frag" ∧
    pyUrlparse (clean_url_str "https://ex.com/a/p;pr?utm_source=x&a=1#frag")
      = some ⟨"https", "ex.com", "/a/p", "pr",
          pyUrlencode ((pyParseQsl "utm_source=x&a=1").filter fun kv => !(isUtmKey kv.1)),
          "frag"⟩ ∧
    (("a", "1") ∈ pyParseQsl "utm_source=x&a=1" ∧ isUtmKey "a" = false) ∧
    ((pyParseQsl "utm_source=x&a=1").filter fun kv => !(isUtmKey kv.1)).count ("a", "1")
      = (pyParseQsl "utm_source=x&a=1").count ("a", "1") := by
  have h := C7_clean_url_normalization "https://ex.com/a/p;pr?utm_source=x&a=1#frag"
    ⟨"https", "ex.com", "/a/p", "pr", "utm_source=x&a=1", "frag"⟩ (by decide) (by decide)
  exact ⟨by decide, h.1, h.2.1, ⟨by decide, by decide⟩,
    h.2.2.2.2 ("a", "1") (by decide)⟩

/-! ## C8: the fetch cap is per source, not a total -/

/-- Two feeds with one valid entry each, under distinct titles. -/
def entryC8a : RawEntry :=
  ⟨"Bitcoin rises strongly today", "Summary number one padded out.", "",
   "https://a.example/p1", [], [], []⟩

def entryC8b : RawEntry :=
  ⟨"Ethereum falls sharply today", "Summary number two padded out.", "",
   "https://a.example/p2", [], [], []⟩

def parseC8 : String → Nat → ParsedFeed := fun url _ =>
  if url = "f1" then ⟨false, "S1", [entryC8a]⟩ else ⟨false, "S2", [entryC8b]⟩

/-- C8 as stated is false: with limit_total = 1 and two sources, the
candidate list holds two items. -/
theorem C8_total_cap_counterexample :
    ¬ ((fetch_items initDB 0 ["f1", "f2"] 1 parseC8 ogEmpty).2.length ≤ 1) := by decide

/-- C8 amended: limit_total caps each source separately, so the candidate
list holds at most (number of sources) * limit_total items. -/
theorem C8_per_source_cap (db : DB) (now : Nat) (urls : List String) (lt : Nat)
    (parse : String → Nat → ParsedFeed) (og : String → String) :
    (fetch_items db now urls lt parse og).2.length ≤ urls.length * lt := by
  unfold fetch_items
  dsimp only
  calc (dedupByUid (fetchAll (clear_available_sources db now) now urls lt parse og).2).length
      ≤ (fetchAll (clear_available_sources db now) now urls lt parse og).2.length :=
        dedupByUid_length _
    _ ≤ urls.length * lt := (fetchAll_fields now lt parse og urls _).2.2

/-! ## C9: the uniq dict keeps the last occurrence, not the first -/

/-- One feed yielding two entries with the same source, link and title
(hence the same uid) but different summaries. -/
def entryC9a : RawEntry :=
  ⟨"Bitcoin rises strongly today", "Summary number one padded out.", "",
   "https://a.example/p1", [], [], []⟩

def entryC9b : RawEntry :=
  ⟨"Bitcoin rises strongly today", "Summary number two padded out.", "",
   "https://a.example/p1", [], [], []⟩

def parseC9 : String → Nat → ParsedFeed := fun _ _ => ⟨false, "S1", [entryC9a, entryC9b]⟩

/-- The first fetched occurrence of the duplicated uid. -/
def itemC9first : Item :=
  ⟨"S1|https://a.example/p1|Bitcoin rises strongly today", "Bitcoin rises strongly today",
   "Summary number one padded out.", "https://a.example/p1", "S1", ""⟩

/-- C9 as stated is false: the first occurrence is fetched first, yet the
candidate set returned by fetch_items does not contain it (the later
occurrence overwrote it). -/
theorem C9_first_occurrence_counterexample :
    (fetchAll (clear_available_sources initDB 0) 0 ["f1"] 30 parseC9 ogEmpty).2.head?
      = some itemC9first ∧
    itemC9first ∉ (fetch_items initDB 0 ["f1"] 30 parseC9 ogEmpty).2 := by decide

/-- C9 amended: for every uid, the candidate set returned by fetch_items
contains exactly one item with that uid, namely the last occurrence of
the uid in fetch order (dict assignment overwrites the stored item while
keeping the first-insertion position). -/
theorem C9_last_occurrence_kept (db : DB) (now : Nat) (urls : List String) (lt : Nat)
    (parse : String → Nat → ParsedFeed) (og : String → String) (u : String) :
    (fetch_items db now urls lt parse og).2.filter (fun j => j.uid == u) =
      ((fetchAll (clear_available_sources db now) now urls lt parse og).2.filter
        (fun j => j.uid == u)).getLast?.toList := by
  unfold fetch_items
  dsimp only
  exact dedupByUid_filter _ u

/-- C10: the heuristic rewrite always yields at least ten characters (the
market-impact line is never empty), so with the empty HF token the
caption-too-short rejection branch of publish_post_with_retry is
unreachable and the engine always proceeds to the attempt loop. -/
theorem C10_caption_min_length (hfOut : Option String) (eIdx : Nat)
    (att : Photo → String → Nat → TGOutcome) (title summary img : String) :
    10 ≤ (simple_rewrite_ru eIdx title summary).length ∧
    generate_market_impact title summary ≠ "" ∧
    10 ≤ (build_caption hfOut eIdx title summary).length ∧
    publish_post_with_retry hfOut eIdx att title summary img =
      pubGo (att (if img ≠ "" then Photo.url img else Photo.file DEFAULT_IMAGE_PATH)
        (build_caption hfOut eIdx title summary))
        TELEGRAM_RETRY_ATTEMPTS TELEGRAM_RETRY_ATTEMPTS 0 := by
  refine ⟨simple_rewrite_ru_length eIdx title summary, ?_,
    build_caption_length hfOut eIdx title summary,
    publish_runs_loop hfOut eIdx att title summary img⟩
  intro he
  have hlen := generate_market_impact_length title summary
  rw [he] at hlen
  exact absurd hlen (by decide)

end CryptoBot
